import Mathlib

/-!
Shallow embedding of the Reversi rules engine of `games-for-redox`
(`src/src/rusthello/reversi/turn.rs`).  The `Board` / `Coord` collaborator
lives in the external `reversi` crate, so it is modelled from the spec
(section 6); everything in `Turn` is translated from the source.
-/

set_option maxHeartbeats 1000000

namespace Rusthello

/-- Side of a player: the source's `reversi::Side` with the two variants. -/
inductive Side where
  | Dark
  | Light
deriving DecidableEq, Repr

/-- Modelled from the spec: each side has a total, fixed opposite mapping. -/
def Side.opposite : Side → Side
  | .Dark => .Light
  | .Light => .Dark

/-- Modelled from the spec: a disk is a placed token tagged with exactly one side. -/
structure Disk where
  side : Side
deriving DecidableEq, Repr

/-- Accessor used by `turn.rs` (`disk.get_side()`). -/
def Disk.get_side (d : Disk) : Side := d.side

/-- Modelled from the spec: a cell is empty or holds exactly one disk. -/
abbrev Cell := Option Disk

/-- Modelled from the spec: a (row, column) pair; the grid is BOARD_SIZE x BOARD_SIZE
and out-of-range pairs are representable (operations bounds-check them). -/
structure Coord where
  row : Nat
  col : Nat
deriving DecidableEq, Repr

/-- Constructor `Coord::new(row, col)`. -/
def Coord.new (row col : Nat) : Coord := ⟨row, col⟩

/-- Board side length (`BOARD_SIZE` in the source). -/
def BOARD_SIZE : Nat := 8

/-- Number of cells of the board (`NUM_CELLS` in the source). -/
def NUM_CELLS : Nat := 64

/-- The eight compass directions (`DIRECTIONS` in the external crate). -/
inductive Direction where
  | North
  | NorthEast
  | East
  | SouthEast
  | South
  | SouthWest
  | West
  | NorthWest
deriving DecidableEq, Repr

/-- Row delta of a direction (north decreases the row index). -/
def Direction.dr : Direction → Int
  | .North => -1
  | .NorthEast => -1
  | .East => 0
  | .SouthEast => 1
  | .South => 1
  | .SouthWest => 1
  | .West => 0
  | .NorthWest => -1

/-- Column delta of a direction (east increases the column index). -/
def Direction.dc : Direction → Int
  | .North => 0
  | .NorthEast => 1
  | .East => 1
  | .SouthEast => 1
  | .South => 0
  | .SouthWest => -1
  | .West => -1
  | .NorthWest => -1

/-- The list of all eight directions iterated by `turn.rs`. -/
def DIRECTIONS : List Direction :=
  [.North, .NorthEast, .East, .SouthEast, .South, .SouthWest, .West, .NorthWest]

/-- Error taxonomy: the three business errors raised by `turn.rs` plus the
bounds / occupancy errors of the external collaborator (spec sections 6-7). -/
inductive ReversiError where
  | EndedGame
  | CellAlreadyTaken (coord : Coord)
  | IllegalMove (coord : Coord)
  | OutOfBounds (coord : Coord)
  | EmptyCell (coord : Coord)
deriving DecidableEq, Repr

/-- Modelled from the spec: bounds-checked stepping; fails when the target
cell would be off-grid. -/
def Coord.step (c : Coord) (d : Direction) : Except ReversiError Coord :=
  let r : Int := (c.row : Int) + d.dr
  let k : Int := (c.col : Int) + d.dc
  if 0 ≤ r ∧ r < 8 ∧ 0 ≤ k ∧ k < 8 then
    .ok ⟨r.toNat, k.toNat⟩
  else
    .error (.OutOfBounds c)

/-- Modelled from the spec: the board is a grid of cells; we represent it as a
total function on coordinates, with every operation bounds-checked. -/
abbrev Board := Coord → Cell

/-- Modelled from the spec: bounds-checked cell read. -/
def Board.get_cell (b : Board) (c : Coord) : Except ReversiError Cell :=
  if c.row < 8 ∧ c.col < 8 then .ok (b c) else .error (.OutOfBounds c)

/-- Modelled from the spec: place a disk on an empty in-bounds cell. -/
def Board.place_disk (b : Board) (s : Side) (c : Coord) : Except ReversiError Board :=
  match b.get_cell c with
  | .error e => .error e
  | .ok (some _) => .error (.CellAlreadyTaken c)
  | .ok none => .ok (Function.update b c (some ⟨s⟩))

/-- Modelled from the spec: flip the disk of an occupied in-bounds cell. -/
def Board.flip_disk (b : Board) (c : Coord) : Except ReversiError Board :=
  match b.get_cell c with
  | .error e => .error e
  | .ok none => .error (.EmptyCell c)
  | .ok (some d) => .ok (Function.update b c (some ⟨d.get_side.opposite⟩))

/-- Modelled from the spec: read the disk of an occupied in-bounds cell. -/
def Board.get_disk (b : Board) (c : Coord) : Except ReversiError Disk :=
  match b.get_cell c with
  | .error e => .error e
  | .ok none => .error (.EmptyCell c)
  | .ok (some d) => .ok d

/-- State of a turn (`type State = Option<reversi::Side>` in the source). -/
abbrev State := Option Side

/-- Wrapping 8-bit addition: release-mode semantics of `u8` `+`. -/
def wadd (a b : Nat) : Nat := (a + b) % 256

/-- Wrapping 8-bit subtraction: release-mode semantics of `u8` `-`. -/
def wsub (a b : Nat) : Nat := (a + (256 - b % 256)) % 256

/-- The `Turn` struct of the source: a board, the state, and the two scores
(`u8` fields embedded as `Nat`, all score arithmetic wrapping mod 256). -/
structure Turn where
  board : Board
  state : State
  score_dark : Nat
  score_light : Nat

/-- The chain of the four `place_disk` calls of `Turn::first_turn`; the
source unwraps each with `expect("This cannot fail")`. -/
def first_turn_board : Except ReversiError Board := do
  let b0 : Board := fun _ => none
  let b1 ← b0.place_disk .Dark ⟨3, 4⟩
  let b2 ← b1.place_disk .Dark ⟨4, 3⟩
  let b3 ← b2.place_disk .Light ⟨3, 3⟩
  b3.place_disk .Light ⟨4, 4⟩

/-- Constructor `Turn::first_turn`: starting position, Dark to play, both scores 2.
The error arm models the (unreachable) panic of `expect`. -/
def first_turn : Turn :=
  match first_turn_board with
  | .ok b => ⟨b, some .Dark, 2, 2⟩
  | .error _ => ⟨fun _ => none, some .Dark, 2, 2⟩

/-- Accessor `Turn::get_board`. -/
def Turn.get_board (t : Turn) : Board := t.board

/-- Accessor `Turn::get_cell`. -/
def Turn.get_cell (t : Turn) (c : Coord) : Except ReversiError Cell :=
  t.board.get_cell c

/-- Accessor `Turn::get_state`. -/
def Turn.get_state (t : Turn) : State := t.state

/-- Accessor `Turn::is_endgame`. -/
def Turn.is_endgame (t : Turn) : Bool := t.state = none

/-- Accessor `Turn::get_score`. -/
def Turn.get_score (t : Turn) : Nat × Nat := (t.score_dark, t.score_light)

/-- Accessor `Turn::get_score_diff` (`i16` arithmetic; exact for `u8` operands). -/
def Turn.get_score_diff (t : Turn) : Int :=
  (t.score_light : Int) - (t.score_dark : Int)

/-- Accessor `Turn::get_tempo` (`u8` addition of the two scores). -/
def Turn.get_tempo (t : Turn) : Nat := wadd t.score_light t.score_dark

/-- Termination measure for the directional scans: distance (in steps along
direction `d`) that remains before the scan must leave the board. -/
def dirMeasure (c : Coord) (d : Direction) : Nat :=
  (if d.dr = 1 then 8 - c.row else c.row) + (if d.dc = 1 then 8 - c.col else c.col)

/-- Equality on results is decidable (used only to evaluate concrete runs). -/
instance exceptDecEq {ε α : Type} [DecidableEq ε] [DecidableEq α] :
    DecidableEq (Except ε α) := fun x y =>
  match x, y with
  | .ok a, .ok b =>
    if h : a = b then .isTrue (by rw [h]) else .isFalse (by simp [h])
  | .ok _, .error _ => .isFalse (by simp)
  | .error _, .ok _ => .isFalse (by simp)
  | .error e, .error f =>
    if h : e = f then .isTrue (by rw [h]) else .isFalse (by simp [h])

/-- The `while let` scan of `Turn::check_move_along_direction`, with a fuel
argument (structural recursion; `dirMeasure` fuel is proven exact below):
keep stepping while the cell is occupied; report true on the first disk
whose side equals the state. -/
def scanF (b : Board) (st : State) (d : Direction) : Nat → Coord → Bool
  | 0, _ => false
  | n + 1, nc =>
    match nc.step d with
    | .error _ => false
    | .ok nc2 =>
      match b.get_cell nc2 with
      | .ok (some disk) =>
        if some disk.get_side = st then true else scanF b st d n nc2
      | _ => false

/-- The `while let` scan of `Turn::check_move_along_direction`. -/
def scanOpt (b : Board) (st : State) (d : Direction) (nc : Coord) : Bool :=
  scanF b st d (dirMeasure nc d) nc

/-- Body of `Turn::check_move_along_direction` over a board and a state. -/
def chkMoveDir (b : Board) (st : State) (c : Coord) (d : Direction) : Bool :=
  match c.step d with
  | .error _ => false
  | .ok nc =>
    match b.get_cell nc with
    | .ok (some next_disk) =>
      if some next_disk.get_side.opposite = st then scanOpt b st d nc else false
    | _ => false

/-- Method `Turn::check_move_along_direction`. -/
def Turn.check_move_along_direction (t : Turn) (c : Coord) (d : Direction) : Bool :=
  chkMoveDir t.board t.state c d

/-- Method `Turn::check_move`. -/
def Turn.check_move (t : Turn) (c : Coord) : Except ReversiError Unit :=
  match t.state with
  | none => .error .EndedGame
  | some _ =>
    match t.board.get_cell c with
    | .error e => .error e
    | .ok (some _) => .error (.CellAlreadyTaken c)
    | .ok none =>
      if DIRECTIONS.any (fun d => t.check_move_along_direction c d) then .ok ()
      else .error (.IllegalMove c)

/-- The `while` loop of `Turn::make_move_along_direction`, with a fuel
argument (structural recursion; `dirMeasure` fuel is proven exact below):
flip disks along `d` until a disk of `side` is found, counting the flips in
`eating` (the loop runs at most 8 times, so the `u8` counter cannot wrap
and is embedded as plain `Nat`). -/
def eatF (side : Side) (d : Direction) :
    Nat → Board → Coord → Nat → Except ReversiError (Board × Nat)
  | 0, _, nc, _ => .error (.OutOfBounds nc)
  | n + 1, b, nc, eating =>
    match nc.step d with
    | .error e => .error e
    | .ok nc2 =>
      match b.get_disk nc2 with
      | .error e => .error e
      | .ok disk =>
        if disk.get_side = side then .ok (b, eating)
        else
          match b.flip_disk nc2 with
          | .error e => .error e
          | .ok b2 => eatF side d n b2 nc2 (eating + 1)

/-- The `while` loop of `Turn::make_move_along_direction`. -/
def eatLoop (b : Board) (side : Side) (d : Direction) (nc : Coord) (eating : Nat) :
    Except ReversiError (Board × Nat) :=
  eatF side d (dirMeasure nc d) b nc eating

/-- Fuel-indexed count of the cells the eat loop flips along `d`: the length
of the occupied run before the first disk of `side` (0 when the run is not
terminated by such a disk before an empty cell or the board edge). -/
def runLenF (b : Board) (side : Side) (d : Direction) : Nat → Coord → Nat
  | 0, _ => 0
  | n + 1, nc =>
    match nc.step d with
    | .error _ => 0
    | .ok nc2 =>
      match b.get_disk nc2 with
      | .error _ => 0
      | .ok disk =>
        if disk.get_side = side then 0 else 1 + runLenF b side d n nc2

/-- Count of the cells the eat loop flips along `d` from `nc`. -/
def runLen (b : Board) (side : Side) (d : Direction) (nc : Coord) : Nat :=
  runLenF b side d (dirMeasure nc d) nc

/-- Method `Turn::make_move_along_direction`.  Line 113 of the source discards the
result of the first `flip_disk` (only the `step` error propagates), which the
inner `match` mirrors: on a flip failure the board is left unchanged. -/
def Turn.make_move_along_direction (t : Turn) (c : Coord) (d : Direction) :
    Except ReversiError Turn :=
  match t.state with
  | none => .error .EndedGame
  | some side =>
    match c.step d with
    | .error e => .error e
    | .ok nc =>
      let b1 := match t.board.flip_disk nc with
        | .ok b => b
        | .error _ => t.board
      match eatLoop b1 side d nc 1 with
      | .error e => .error e
      | .ok (b2, eating) =>
        match side with
        | .Light =>
          .ok { t with
                board := b2
                score_light := wadd t.score_light eating
                score_dark := wsub t.score_dark eating }
        | .Dark =>
          .ok { t with
                board := b2
                score_light := wsub t.score_light eating
                score_dark := wadd t.score_dark eating }

/-- The direction loop of `Turn::make_move`: directions are checked against
the original turn `t` while the moves accumulate in `acc`; the returned flag
is the source's `legal` variable. -/
def moveAlongDirs (t : Turn) (c : Coord) :
    Turn → List Direction → Except ReversiError (Turn × Bool)
  | acc, [] => .ok (acc, false)
  | acc, d :: ds =>
    if t.check_move_along_direction c d then
      match acc.make_move_along_direction c d with
      | .error e => .error e
      | .ok acc2 =>
        match moveAlongDirs t c acc2 ds with
        | .error e => .error e
        | .ok (res, _) => .ok (res, true)
    else
      moveAlongDirs t c acc ds

/-- Body of `Turn::can_move` over a board and a state: full-board scan of
the `get_all_cells` array. -/
def canMoveB (b : Board) (st : State) : Bool :=
  (List.range 8).any fun row =>
    (List.range 8).any fun col =>
      match b ⟨row, col⟩ with
      | none => DIRECTIONS.any fun d => chkMoveDir b st ⟨row, col⟩ d
      | some _ => false

/-- Method `Turn::can_move`. -/
def Turn.can_move (t : Turn) : Bool := canMoveB t.board t.state

/-- The placement step of `Turn::make_move`: install the board with the new
disk and give the mover the extra point for it (`u8` addition). -/
def scoreBump (tam : Turn) (b2 : Board) (side : Side) : Turn :=
  match side with
  | .Dark => { tam with board := b2, score_dark := wadd tam.score_dark 1 }
  | .Light => { tam with board := b2, score_light := wadd tam.score_light 1 }

/-- Method `Turn::make_move`.  Note the source tests `Ok(None) = get_cell(coord)`
first: an occupied or out-of-bounds coordinate falls into the final `else`
and yields `CellAlreadyTaken`, even when the game has ended. -/
def Turn.make_move (t : Turn) (c : Coord) : Except ReversiError Turn :=
  match t.board.get_cell c with
  | .ok none =>
    match t.state with
    | some turn_side =>
      match moveAlongDirs t c t DIRECTIONS with
      | .error e => .error e
      | .ok (turn_after_move, legal) =>
        if legal then
          match turn_after_move.board.place_disk turn_side c with
          | .error e => .error e
          | .ok b2 =>
            let t1 : Turn := scoreBump turn_after_move b2 turn_side
            if t1.get_tempo = NUM_CELLS then
              .ok { t1 with state := none }
            else
              let t2 : Turn := { t1 with state := some turn_side.opposite }
              if t2.can_move then .ok t2
              else
                let t3 : Turn := { t2 with state := some turn_side }
                if t3.can_move then .ok t3
                else .ok { t3 with state := none }
        else
          .error (.IllegalMove c)
    | none => .error .EndedGame
  | _ => .error (.CellAlreadyTaken c)

/-- Method `Turn::make_move` with the receiver threaded as explicit mutable state,
as the `&self` borrow would present it: every statement of the source
either reads `self` (returning it unchanged) or writes the local clone
`turn_after_move`; the final value of `self` is returned next to the
result. -/
def Turn.makeMoveWithSelf (self : Turn) (c : Coord) : Turn × Except ReversiError Turn :=
  match self.board.get_cell c with
  | .ok none =>
    match self.state with
    | some turn_side =>
      let turn_after_move := self
      match moveAlongDirs self c turn_after_move DIRECTIONS with
      | .error e => (self, .error e)
      | .ok (turn_after_move, legal) =>
        if legal then
          match turn_after_move.board.place_disk turn_side c with
          | .error e => (self, .error e)
          | .ok b2 =>
            let t1 : Turn := scoreBump turn_after_move b2 turn_side
            if t1.get_tempo = NUM_CELLS then
              (self, .ok { t1 with state := none })
            else
              let t2 : Turn := { t1 with state := some turn_side.opposite }
              if t2.can_move then (self, .ok t2)
              else
                let t3 : Turn := { t2 with state := some turn_side }
                if t3.can_move then (self, .ok t3)
                else (self, .ok { t3 with state := none })
        else
          (self, .error (.IllegalMove c))
    | none => (self, .error .EndedGame)
  | _ => (self, .error (.CellAlreadyTaken c))

/-- In-bounds predicate of the 8 x 8 grid. -/
def Coord.inBounds (c : Coord) : Prop := c.row < 8 ∧ c.col < 8

instance (c : Coord) : Decidable c.inBounds := by
  unfold Coord.inBounds
  infer_instance

/-- Score field of the given side. -/
def scoreOf (t : Turn) (s : Side) : Nat :=
  match s with
  | .Dark => t.score_dark
  | .Light => t.score_light

/-- Iterated bounds-checked stepping: the cell reached after `i` steps in
direction `d`, when every step stays on the board. -/
def stepN (c : Coord) (d : Direction) : Nat → Option Coord
  | 0 => some c
  | i + 1 =>
    match stepN c d i with
    | some p => (p.step d).toOption
    | none => none

/-- The cells strictly ahead of `c` in direction `d` (at least one step). -/
def rayFrom (c : Coord) (d : Direction) (q : Coord) : Prop :=
  ∃ i, 1 ≤ i ∧ stepN c d i = some q

/-- Specification of the inner `while` scan: some cell `j ≥ 1` steps ahead
holds a disk of side `s`, and every cell strictly before it (and after the
start) is occupied. -/
def ScanSpec (b : Board) (s : Side) (d : Direction) (nc : Coord) : Prop :=
  ∃ j, 1 ≤ j ∧
    (∀ i, 1 ≤ i → i < j → ∃ p dk, stepN nc d i = some p ∧ b p = some dk) ∧
    (∃ p, stepN nc d j = some p ∧ b p = some ⟨s⟩)

/-- The capture condition of the claim, stated from the spec's words: a
non-empty contiguous run of opposite-side disks starting at the cell
immediately adjacent to `c` in direction `d`, terminated - before running
off-board or reaching an empty cell - by a disk of the moving side `s`. -/
def SpecCapture (b : Board) (s : Side) (c : Coord) (d : Direction) : Prop :=
  ∃ k, 1 ≤ k ∧
    (∀ i, 1 ≤ i → i ≤ k → ∃ p, stepN c d i = some p ∧ b p = some ⟨s.opposite⟩) ∧
    (∃ p, stepN c d (k + 1) = some p ∧ b p = some ⟨s⟩)

/-- The in-bounds coordinates, as a finite set. -/
def coordFinset : Finset Coord :=
  (Finset.range 8 ×ˢ Finset.range 8).image fun p => ⟨p.1, p.2⟩

/-- Number of board cells satisfying `P`. -/
def countCells (b : Board) (P : Cell → Bool) : Nat :=
  ∑ q ∈ coordFinset, if P (b q) then 1 else 0

/-- Number of disks of side `s` on the board. -/
def countSide (b : Board) (s : Side) : Nat :=
  countCells b fun cell => cell == some ⟨s⟩

/-- Number of occupied cells of the board. -/
def countOcc (b : Board) : Nat :=
  countCells b fun cell => cell.isSome

/-- Score bookkeeping invariant: each tracked score equals the number of
disks of that side on the board. -/
def Inv (t : Turn) : Prop :=
  t.score_dark = countSide t.board .Dark ∧ t.score_light = countSide t.board .Light

/-- The turns constructible by the engine: the first turn, and every result
of a successful `make_move`. -/
inductive Reachable : Turn → Prop where
  | first : Reachable first_turn
  | step {t t2 : Turn} {c : Coord} : Reachable t → t.make_move c = .ok t2 → Reachable t2

/-- Number of disks `make_move` flips in direction `d` (0 when the
direction does not capture): the adjacent disk plus the run the eat loop
consumes. -/
def perDirFlips (t : Turn) (c : Coord) (d : Direction) : Nat :=
  if t.check_move_along_direction c d then
    match t.state, c.step d with
    | some s, .ok nc => 1 + runLen t.board s d nc
    | _, _ => 0
  else 0

/-- Total number of disks `make_move` flips across all capturing directions. -/
def totalFlips (t : Turn) (c : Coord) : Nat :=
  (DIRECTIONS.map (perDirFlips t c)).sum

/-- A side has at least one legal move on a board (scores are irrelevant to
`check_move`). -/
def hasLegalMove (b : Board) (s : Side) : Prop :=
  ∃ c, Turn.check_move ⟨b, some s, 0, 0⟩ c = .ok ()

/-- The error of a failed result. -/
def errOf {α : Type} (r : Except ReversiError α) : Option ReversiError :=
  match r with
  | .error e => some e
  | .ok _ => none

/-- The turn after Dark's opening move to (2,3) (used to instantiate
theorems at a concrete successful move). -/
def demoTurn : Turn :=
  match first_turn.make_move ⟨2, 3⟩ with
  | .ok t => t
  | .error _ => first_turn

/-- The turn after applying `make_move_along_direction` south from (2,3) on
the first turn (a concrete capturing direction). -/
def demoMad : Turn :=
  match first_turn.make_move_along_direction ⟨2, 3⟩ .South with
  | .ok t => t
  | .error _ => first_turn

/-- A turn whose game has ended, with the starting board (used to
instantiate theorems about ended games at a concrete value). -/
def endedTurn : Turn := { first_turn with state := none }

/-- The record `make_move_along_direction` builds after a successful eat
loop: new board plus the side-dependent wrapping score updates. -/
def madResult (acc : Turn) (b2 : Board) (side : Side) (eating : Nat) : Turn :=
  match side with
  | .Light => { acc with
                board := b2
                score_light := wadd acc.score_light eating
                score_dark := wsub acc.score_dark eating }
  | .Dark => { acc with
               board := b2
               score_light := wsub acc.score_light eating
               score_dark := wadd acc.score_dark eating }

theorem step_decreases {c c2 : Coord} {d : Direction} (h : c.step d = .ok c2) :
    dirMeasure c2 d < dirMeasure c d := by
  simp only [Coord.step] at h
  split at h
  · rename_i hb
    cases h
    cases d <;>
      simp [dirMeasure, Direction.dr, Direction.dc] at hb ⊢ <;>
      omega
  · cases h

/-- If the remaining distance to the edge is zero the bounds-checked step
fails, so a scan driven by `dirMeasure` as fuel is exact. -/
theorem step_of_measure_zero {nc : Coord} {d : Direction} (h : dirMeasure nc d = 0) :
    nc.step d = .error (.OutOfBounds nc) := by
  simp only [Coord.step]
  rw [if_neg]
  intro hb
  cases d <;> simp [dirMeasure, Direction.dr, Direction.dc] at h hb ⊢ <;> omega

theorem scanF_stable (b : Board) (st : State) (d : Direction) :
    ∀ n m nc, dirMeasure nc d ≤ n → dirMeasure nc d ≤ m →
      scanF b st d n nc = scanF b st d m nc := by
  intro n
  induction n with
  | zero =>
    intro m nc hn _
    have hz := step_of_measure_zero (Nat.le_zero.mp hn)
    cases m with
    | zero => rfl
    | succ m => simp [scanF, hz]
  | succ n ih =>
    intro m nc hn hm
    cases m with
    | zero =>
      have hz := step_of_measure_zero (Nat.le_zero.mp hm)
      simp [scanF, hz]
    | succ m =>
      simp only [scanF]
      cases hs : nc.step d with
      | error e => rfl
      | ok nc2 =>
        have hlt := step_decreases hs
        cases hc : b.get_cell nc2 with
        | error e => simp only [hc]
        | ok cell =>
          cases cell with
          | none => simp only [hc]
          | some disk =>
            simp only [hc]
            by_cases hside : some disk.get_side = st
            · simp [hside]
            · simp only [hside, if_false]
              exact ih m nc2 (by omega) (by omega)

/-- One-step unfolding of `scanOpt`, matching the source loop. -/
theorem scanOpt_unfold (b : Board) (st : State) (d : Direction) (nc : Coord) :
    scanOpt b st d nc =
      match nc.step d with
      | .error _ => false
      | .ok nc2 =>
        match b.get_cell nc2 with
        | .ok (some disk) =>
          if some disk.get_side = st then true else scanOpt b st d nc2
        | _ => false := by
  unfold scanOpt
  cases hn : dirMeasure nc d with
  | zero => simp [scanF, step_of_measure_zero hn]
  | succ n =>
    simp only [scanF]
    cases hs : nc.step d with
    | error e => simp only [hs]
    | ok nc2 =>
      have hlt := step_decreases hs
      simp only [hs]
      cases hc : b.get_cell nc2 with
      | error e => simp only [hc]
      | ok cell =>
        cases cell with
        | none => simp only [hc]
        | some disk =>
          simp only [hc]
          by_cases hside : some disk.get_side = st
          · simp [hside]
          · simp only [hside, if_false]
            exact scanF_stable b st d n (dirMeasure nc2 d) nc2 (by omega) (le_refl _)

theorem eatF_stable (side : Side) (d : Direction) :
    ∀ n m b nc eating, dirMeasure nc d ≤ n → dirMeasure nc d ≤ m →
      eatF side d n b nc eating = eatF side d m b nc eating := by
  intro n
  induction n with
  | zero =>
    intro m b nc eating hn _
    have hz := step_of_measure_zero (Nat.le_zero.mp hn)
    cases m with
    | zero => rfl
    | succ m => simp [eatF, hz]
  | succ n ih =>
    intro m b nc eating hn hm
    cases m with
    | zero =>
      have hz := step_of_measure_zero (Nat.le_zero.mp hm)
      simp [eatF, hz]
    | succ m =>
      simp only [eatF]
      cases hs : nc.step d with
      | error e => rfl
      | ok nc2 =>
        have hlt := step_decreases hs
        cases hg : b.get_disk nc2 with
        | error e => simp only [hg]
        | ok disk =>
          simp only [hg]
          by_cases hside : disk.get_side = side
          · simp [hside]
          · simp only [hside, if_false]
            cases hf : b.flip_disk nc2 with
            | error e => simp only [hf]
            | ok b2 =>
              simp only [hf]
              exact ih m b2 nc2 (eating + 1) (by omega) (by omega)

/-- One-step unfolding of `eatLoop`, matching the source loop. -/
theorem eatLoop_unfold (b : Board) (side : Side) (d : Direction) (nc : Coord) (eating : Nat) :
    eatLoop b side d nc eating =
      match nc.step d with
      | .error e => .error e
      | .ok nc2 =>
        match b.get_disk nc2 with
        | .error e => .error e
        | .ok disk =>
          if disk.get_side = side then .ok (b, eating)
          else
            match b.flip_disk nc2 with
            | .error e => .error e
            | .ok b2 => eatLoop b2 side d nc2 (eating + 1) := by
  unfold eatLoop
  cases hn : dirMeasure nc d with
  | zero => simp [eatF, step_of_measure_zero hn]
  | succ n =>
    simp only [eatF]
    cases hs : nc.step d with
    | error e => simp only [hs]
    | ok nc2 =>
      have hlt := step_decreases hs
      simp only [hs]
      cases hg : b.get_disk nc2 with
      | error e => simp only [hg]
      | ok disk =>
        simp only [hg]
        by_cases hside : disk.get_side = side
        · simp [hside]
        · simp only [hside, if_false]
          cases hf : b.flip_disk nc2 with
          | error e => simp only [hf]
          | ok b2 =>
            simp only [hf]
            exact eatF_stable side d n (dirMeasure nc2 d) b2 nc2 (eating + 1)
              (by omega) (le_refl _)

theorem runLenF_stable (b : Board) (side : Side) (d : Direction) :
    ∀ n m nc, dirMeasure nc d ≤ n → dirMeasure nc d ≤ m →
      runLenF b side d n nc = runLenF b side d m nc := by
  intro n
  induction n with
  | zero =>
    intro m nc hn _
    have hz := step_of_measure_zero (Nat.le_zero.mp hn)
    cases m with
    | zero => rfl
    | succ m => simp [runLenF, hz]
  | succ n ih =>
    intro m nc hn hm
    cases m with
    | zero =>
      have hz := step_of_measure_zero (Nat.le_zero.mp hm)
      simp [runLenF, hz]
    | succ m =>
      simp only [runLenF]
      cases hs : nc.step d with
      | error e => rfl
      | ok nc2 =>
        have hlt := step_decreases hs
        cases hg : b.get_disk nc2 with
        | error e => simp only [hg]
        | ok disk =>
          simp only [hg]
          by_cases hside : disk.get_side = side
          · simp [hside]
          · simp only [hside, if_false]
            rw [ih m nc2 (by omega) (by omega)]

/-- One-step unfolding of `runLen`. -/
theorem runLen_unfold (b : Board) (side : Side) (d : Direction) (nc : Coord) :
    runLen b side d nc =
      match nc.step d with
      | .error _ => 0
      | .ok nc2 =>
        match b.get_disk nc2 with
        | .error _ => 0
        | .ok disk =>
          if disk.get_side = side then 0 else 1 + runLen b side d nc2 := by
  unfold runLen
  cases hn : dirMeasure nc d with
  | zero => simp [runLenF, step_of_measure_zero hn]
  | succ n =>
    simp only [runLenF]
    cases hs : nc.step d with
    | error e => simp only [hs]
    | ok nc2 =>
      have hlt := step_decreases hs
      simp only [hs]
      cases hg : b.get_disk nc2 with
      | error e => simp only [hg]
      | ok disk =>
        simp only [hg]
        by_cases hside : disk.get_side = side
        · simp [hside]
        · simp only [hside, if_false]
          rw [runLenF_stable b side d n (dirMeasure nc2 d) nc2 (by omega) (le_refl _)]

theorem Side.opposite_opposite (s : Side) : s.opposite.opposite = s := by
  cases s <;> rfl

theorem Side.opposite_ne (s : Side) : s.opposite ≠ s := by
  cases s <;> simp [Side.opposite]

theorem Side.eq_opposite_of_ne {x s : Side} (h : x ≠ s) : x = s.opposite := by
  cases x <;> cases s <;> simp_all [Side.opposite]

theorem Side.eq_of_opposite_eq {x s : Side} (h : x.opposite = s) : x = s.opposite := by
  cases x <;> cases s <;> simp_all [Side.opposite]

theorem Direction.delta_ne_zero (d : Direction) : ¬(d.dr = 0 ∧ d.dc = 0) := by
  cases d <;> simp [Direction.dr, Direction.dc]

theorem step_ok_inBounds {c c2 : Coord} {d : Direction} (h : c.step d = .ok c2) :
    c2.inBounds := by
  simp only [Coord.step] at h
  split at h
  · rename_i hb
    cases h
    refine ⟨?_, ?_⟩ <;> simp <;> omega
  · cases h

theorem step_int {c c2 : Coord} {d : Direction} (h : c.step d = .ok c2) :
    (c2.row : Int) = c.row + d.dr ∧ (c2.col : Int) = c.col + d.dc := by
  simp only [Coord.step] at h
  split at h
  · rename_i hb
    cases h
    constructor <;> simp <;> omega
  · cases h

theorem stepN_succ_of_step {c c2 : Coord} {d : Direction} (h : c.step d = .ok c2) :
    ∀ i, stepN c d (i + 1) = stepN c2 d i := by
  intro i
  induction i with
  | zero => simp [stepN, h, Except.toOption]
  | succ i ih =>
    show (match stepN c d (i + 1) with
          | some p => (p.step d).toOption
          | none => none) = stepN c2 d (i + 1)
    rw [ih]
    rfl

theorem stepN_none_succ {c : Coord} {d : Direction} {i : Nat}
    (h : stepN c d i = none) : stepN c d (i + 1) = none := by
  show (match stepN c d i with
        | some p => (p.step d).toOption
        | none => none) = none
  rw [h]

theorem stepN_none_of_step_error {c : Coord} {d : Direction} {e : ReversiError}
    (h : c.step d = .error e) : ∀ j, 1 ≤ j → stepN c d j = none := by
  intro j hj
  induction j with
  | zero => omega
  | succ j ih =>
    cases Nat.eq_or_lt_of_le hj with
    | inl h1 =>
      cases h1
      show (match stepN c d 0 with
            | some p => (p.step d).toOption
            | none => none) = none
      simp [stepN, h, Except.toOption]
    | inr h1 => exact stepN_none_succ (ih (by omega))

theorem toOption_eq_some {α : Type} {r : Except ReversiError α} {a : α}
    (h : r.toOption = some a) : r = .ok a := by
  cases r with
  | ok b => simpa [Except.toOption] using congrArg some (by simpa [Except.toOption] using h)
  | error e => simp [Except.toOption] at h

theorem stepN_one {c c2 : Coord} {d : Direction} (h : c.step d = .ok c2) :
    stepN c d 1 = some c2 := by
  simp [stepN, h, Except.toOption]

theorem stepN_int {c : Coord} {d : Direction} :
    ∀ {i : Nat} {p : Coord}, stepN c d i = some p →
      (p.row : Int) = c.row + i * d.dr ∧ (p.col : Int) = c.col + i * d.dc := by
  intro i
  induction i with
  | zero =>
    intro p h
    cases h
    simp
  | succ i ih =>
    intro p h
    have hm : (match stepN c d i with
            | some q => (q.step d).toOption
            | none => none) = some p := h
    cases hq : stepN c d i with
    | none => rw [hq] at hm; cases hm
    | some q =>
      rw [hq] at hm
      have hstep := toOption_eq_some hm
      obtain ⟨hr, hc⟩ := ih hq
      obtain ⟨hr2, hc2⟩ := step_int hstep
      constructor
      · rw [hr2, hr]; push_cast; ring
      · rw [hc2, hc]; push_cast; ring

theorem stepN_ne_start {c p : Coord} {d : Direction} {i : Nat}
    (hi : 1 ≤ i) (h : stepN c d i = some p) : p ≠ c := by
  intro hp
  cases hp
  obtain ⟨hr, hc⟩ := stepN_int h
  have hdr : d.dr = 0 := by
    have : (i : Int) * d.dr = 0 := by omega
    rcases mul_eq_zero.mp this with h1 | h1
    · omega
    · exact h1
  have hdc : d.dc = 0 := by
    have : (i : Int) * d.dc = 0 := by omega
    rcases mul_eq_zero.mp this with h1 | h1
    · omega
    · exact h1
  exact Direction.delta_ne_zero d ⟨hdr, hdc⟩

theorem not_rayFrom_self (c : Coord) (d : Direction) : ¬rayFrom c d c := by
  rintro ⟨i, hi, hstep⟩
  exact stepN_ne_start hi hstep rfl

theorem rayFrom_of_step {c c2 : Coord} {d : Direction} (h : c.step d = .ok c2) :
    rayFrom c d c2 :=
  ⟨1, le_refl 1, stepN_one h⟩

theorem rayFrom_mono {c c2 q : Coord} {d : Direction} (h : c.step d = .ok c2)
    (hq : rayFrom c2 d q) : rayFrom c d q := by
  obtain ⟨i, hi, hstep⟩ := hq
  exact ⟨i + 1, by omega, by rw [stepN_succ_of_step h i]; exact hstep⟩

theorem Side.ne_opposite (s : Side) : s ≠ s.opposite := by
  cases s <;> simp [Side.opposite]

theorem get_cell_of_inBounds {b : Board} {c : Coord} (h : c.inBounds) :
    b.get_cell c = .ok (b c) := by
  unfold Board.get_cell
  rw [if_pos ⟨h.1, h.2⟩]

theorem get_cell_error_of_not_inBounds {b : Board} {c : Coord} (h : ¬c.inBounds) :
    b.get_cell c = .error (.OutOfBounds c) := by
  unfold Board.get_cell
  rw [if_neg]
  intro hb
  exact h ⟨hb.1, hb.2⟩

theorem get_cell_ok_none_iff {b : Board} {c : Coord} :
    b.get_cell c = .ok none ↔ c.inBounds ∧ b c = none := by
  by_cases h : c.inBounds
  · rw [get_cell_of_inBounds h]
    simp [h]
  · rw [get_cell_error_of_not_inBounds h]
    simp [h]

theorem get_disk_of_inBounds {b : Board} {c : Coord} (h : c.inBounds) :
    b.get_disk c =
      (match b c with
       | some dk => .ok dk
       | none => .error (.EmptyCell c)) := by
  unfold Board.get_disk
  rw [get_cell_of_inBounds h]
  cases b c <;> rfl

theorem flip_disk_some {b : Board} {c : Coord} {dsk : Disk} (h : c.inBounds)
    (hb : b c = some dsk) :
    b.flip_disk c = .ok (Function.update b c (some ⟨dsk.get_side.opposite⟩)) := by
  unfold Board.flip_disk
  rw [get_cell_of_inBounds h, hb]

theorem place_disk_none {b : Board} {c : Coord} {s : Side} (h : c.inBounds)
    (hb : b c = none) :
    b.place_disk s c = .ok (Function.update b c (some ⟨s⟩)) := by
  unfold Board.place_disk
  rw [get_cell_of_inBounds h, hb]

theorem mem_coordFinset {q : Coord} : q ∈ coordFinset ↔ q.inBounds := by
  simp only [coordFinset, Finset.mem_image, Finset.mem_product, Finset.mem_range]
  constructor
  · rintro ⟨⟨r, k⟩, ⟨h1, h2⟩, rfl⟩
    exact ⟨h1, h2⟩
  · intro ⟨h1, h2⟩
    exact ⟨(q.row, q.col), ⟨h1, h2⟩, rfl⟩

theorem countCells_update {b : Board} {p : Coord} {v : Cell} {P : Cell → Bool}
    (hp : p.inBounds) :
    countCells (Function.update b p v) P + (if P (b p) then 1 else 0) =
      countCells b P + (if P v then 1 else 0) := by
  have hm : p ∈ coordFinset := mem_coordFinset.mpr hp
  have h1 : countCells (Function.update b p v) P =
      (if P v then 1 else 0) +
        ∑ q ∈ coordFinset.erase p, (if P (b q) then 1 else 0) := by
    unfold countCells
    rw [← Finset.add_sum_erase _ _ hm, Function.update_same]
    congr 1
    exact Finset.sum_congr rfl fun q hq => by
      rw [Function.update_noteq (Finset.ne_of_mem_erase hq)]
  have h2 : countCells b P =
      (if P (b p) then 1 else 0) +
        ∑ q ∈ coordFinset.erase p, (if P (b q) then 1 else 0) := by
    unfold countCells
    rw [← Finset.add_sum_erase _ _ hm]
  omega

theorem countCells_le (b : Board) (P : Cell → Bool) : countCells b P ≤ 64 := by
  have h1 : countCells b P ≤ ∑ _q ∈ coordFinset, 1 :=
    Finset.sum_le_sum fun q _ => by split <;> omega
  have h2 : ∑ _q ∈ coordFinset, 1 = coordFinset.card := by
    rw [Finset.sum_const, smul_eq_mul, mul_one]
  have h3 : coordFinset.card = 64 := by rfl
  omega

theorem countSide_le (b : Board) (s : Side) : countSide b s ≤ 64 :=
  countCells_le b _

theorem countOcc_le (b : Board) : countOcc b ≤ 64 :=
  countCells_le b _

theorem counts_flip {b : Board} {p : Coord} {x : Side} (hp : p.inBounds)
    (hb : b p = some ⟨x⟩) :
    countSide (Function.update b p (some ⟨x.opposite⟩)) x.opposite =
        countSide b x.opposite + 1 ∧
      countSide b x = countSide (Function.update b p (some ⟨x.opposite⟩)) x + 1 ∧
      countOcc (Function.update b p (some ⟨x.opposite⟩)) = countOcc b := by
  refine ⟨?_, ?_, ?_⟩
  · have h := countCells_update (b := b) (p := p) (v := some ⟨x.opposite⟩)
      (P := fun cell => cell == some (⟨x.opposite⟩ : Disk)) hp
    have hne : (⟨x⟩ : Disk) ≠ ⟨x.opposite⟩ := by
      simp [Side.ne_opposite x]
    simp only [hb, beq_iff_eq, Option.some.injEq, hne, if_false, if_true, beq_self_eq_true] at h
    unfold countSide
    omega
  · have h := countCells_update (b := b) (p := p) (v := some ⟨x.opposite⟩)
      (P := fun cell => cell == some (⟨x⟩ : Disk)) hp
    have hne : (⟨x.opposite⟩ : Disk) ≠ ⟨x⟩ := by
      simp [(Side.opposite_ne x)]
    simp only [hb, beq_iff_eq, Option.some.injEq, hne, beq_self_eq_true, if_true, if_false] at h
    unfold countSide
    omega
  · have h := countCells_update (b := b) (p := p) (v := some ⟨x.opposite⟩)
      (P := fun cell => cell.isSome) hp
    simp only [hb, Option.isSome_some, if_true] at h
    unfold countOcc
    omega

theorem counts_place {b : Board} {p : Coord} {s : Side} (hp : p.inBounds)
    (hb : b p = none) :
    countSide (Function.update b p (some ⟨s⟩)) s = countSide b s + 1 ∧
      countSide (Function.update b p (some ⟨s⟩)) s.opposite = countSide b s.opposite ∧
      countOcc (Function.update b p (some ⟨s⟩)) = countOcc b + 1 := by
  refine ⟨?_, ?_, ?_⟩
  · have h := countCells_update (b := b) (p := p) (v := some ⟨s⟩)
      (P := fun cell => cell == some (⟨s⟩ : Disk)) hp
    simp [hb] at h
    unfold countSide
    omega
  · have h := countCells_update (b := b) (p := p) (v := some ⟨s⟩)
      (P := fun cell => cell == some (⟨s.opposite⟩ : Disk)) hp
    have hne : (⟨s⟩ : Disk) ≠ ⟨s.opposite⟩ := by
      simp [Side.ne_opposite s]
    simp [hb, hne] at h
    unfold countSide
    omega
  · have h := countCells_update (b := b) (p := p) (v := some ⟨s⟩)
      (P := fun cell => cell.isSome) hp
    simp [hb] at h
    unfold countOcc
    omega

theorem ray_disjoint {c q : Coord} {d d2 : Direction} (hne : d ≠ d2)
    (h1 : rayFrom c d q) (h2 : rayFrom c d2 q) : False := by
  obtain ⟨i, hi, hstep1⟩ := h1
  obtain ⟨j, hj, hstep2⟩ := h2
  obtain ⟨hr1, hc1⟩ := stepN_int hstep1
  obtain ⟨hr2, hc2⟩ := stepN_int hstep2
  cases d <;> cases d2 <;>
    first
    | exact hne rfl
    | (simp only [Direction.dr, Direction.dc] at hr1 hc1 hr2 hc2; omega)

theorem scanF_congr {b1 b2 : Board} {st : State} {d : Direction} :
    ∀ n nc, (∀ q, rayFrom nc d q → b1 q = b2 q) →
      scanF b1 st d n nc = scanF b2 st d n nc := by
  intro n
  induction n with
  | zero => intro nc _; rfl
  | succ n ih =>
    intro nc hag
    simp only [scanF]
    cases hs : nc.step d with
    | error e => rfl
    | ok nc2 =>
      have hcell : b1 nc2 = b2 nc2 := hag _ (rayFrom_of_step hs)
      simp only [get_cell_of_inBounds (step_ok_inBounds hs), hcell]
      cases b2 nc2 with
      | none => rfl
      | some disk =>
        by_cases hside : some disk.get_side = st
        · simp [hside]
        · simp only [hside, if_false]
          exact ih nc2 fun q hq => hag q (rayFrom_mono hs hq)

theorem scanOpt_congr {b1 b2 : Board} {st : State} {d : Direction} {nc : Coord}
    (hag : ∀ q, rayFrom nc d q → b1 q = b2 q) :
    scanOpt b1 st d nc = scanOpt b2 st d nc :=
  scanF_congr _ nc hag

theorem runLenF_congr {b1 b2 : Board} {side : Side} {d : Direction} :
    ∀ n nc, (∀ q, rayFrom nc d q → b1 q = b2 q) →
      runLenF b1 side d n nc = runLenF b2 side d n nc := by
  intro n
  induction n with
  | zero => intro nc _; rfl
  | succ n ih =>
    intro nc hag
    simp only [runLenF]
    cases hs : nc.step d with
    | error e => rfl
    | ok nc2 =>
      have hcell : b1 nc2 = b2 nc2 := hag _ (rayFrom_of_step hs)
      simp only [get_disk_of_inBounds (step_ok_inBounds hs), hcell]
      cases b2 nc2 with
      | none => rfl
      | some disk =>
        by_cases hside : disk.get_side = side
        · simp [hside]
        · simp only [hside, if_false]
          rw [ih nc2 fun q hq => hag q (rayFrom_mono hs hq)]

theorem runLen_congr {b1 b2 : Board} {side : Side} {d : Direction} {nc : Coord}
    (hag : ∀ q, rayFrom nc d q → b1 q = b2 q) :
    runLen b1 side d nc = runLen b2 side d nc :=
  runLenF_congr _ nc hag

/-- When the inner scan reports a terminated run, the eat loop succeeds: it
flips exactly the `runLen` cells of the run (each from the opposite side to
`side`), touches nothing off the ray, and keeps the board occupancy. -/
theorem eat_spec {side : Side} {d : Direction} :
    ∀ n b nc eating, dirMeasure nc d ≤ n →
      scanOpt b (some side) d nc = true →
      ∃ b2, eatLoop b side d nc eating = .ok (b2, eating + runLen b side d nc) ∧
        (∀ q, ¬rayFrom nc d q → b2 q = b q) ∧
        countSide b2 side = countSide b side + runLen b side d nc ∧
        countSide b side.opposite = countSide b2 side.opposite + runLen b side d nc ∧
        countOcc b2 = countOcc b := by
  intro n
  induction n with
  | zero =>
    intro b nc eating hn hscan
    rw [scanOpt_unfold, step_of_measure_zero (Nat.le_zero.mp hn)] at hscan
    cases hscan
  | succ n ih =>
    intro b nc eating hn hscan
    rw [scanOpt_unfold] at hscan
    cases hs : nc.step d with
    | error e => rw [hs] at hscan; cases hscan
    | ok nc2 =>
      simp only [hs] at hscan
      have hin2 : nc2.inBounds := step_ok_inBounds hs
      simp only [get_cell_of_inBounds hin2] at hscan
      cases hb2 : b nc2 with
      | none => simp [hb2] at hscan
      | some disk =>
        simp only [hb2] at hscan
        by_cases hside : disk.get_side = side
        · have heat : eatLoop b side d nc eating = .ok (b, eating) := by
            rw [eatLoop_unfold]
            simp [hs, get_disk_of_inBounds hin2, hb2, hside]
          have hrl : runLen b side d nc = 0 := by
            rw [runLen_unfold]
            simp [hs, get_disk_of_inBounds hin2, hb2, hside]
          rw [hrl]
          exact ⟨b, by simpa using heat, fun q _ => rfl, by omega, by omega, rfl⟩
        · have hdiskval : disk = ⟨side.opposite⟩ := by
            cases disk with
            | mk x =>
              have hx : x = side.opposite := Side.eq_opposite_of_ne hside
              rw [hx]
          have hb2o : b nc2 = some ⟨side.opposite⟩ := by rw [hb2, hdiskval]
          have hscan2b : scanOpt b (some side) d nc2 = true := by
            have hne2 : ¬(some disk.get_side = (some side : State)) := by
              simpa using hside
            rwa [if_neg hne2] at hscan
          have hopp : disk.get_side.opposite = side := by
            rw [hdiskval]
            exact Side.opposite_opposite side
          have hflip : b.flip_disk nc2 =
              .ok (Function.update b nc2 (some ⟨side⟩)) := by
            rw [flip_disk_some hin2 hb2, hopp]
          have hframe_f : ∀ q, q ≠ nc2 →
              Function.update b nc2 (some (⟨side⟩ : Disk)) q = b q := by
            intro q hq
            rw [Function.update_noteq hq]
          have hray_agree : ∀ q, rayFrom nc2 d q →
              Function.update b nc2 (some (⟨side⟩ : Disk)) q = b q := by
            intro q hq
            exact hframe_f q fun hqe => not_rayFrom_self nc2 d (hqe ▸ hq)
          have hscan2 : scanOpt (Function.update b nc2 (some ⟨side⟩))
              (some side) d nc2 = true := by
            rw [scanOpt_congr hray_agree]
            exact hscan2b
          have hmeas : dirMeasure nc2 d ≤ n := by
            have := step_decreases hs
            omega
          obtain ⟨b2, heat, hfr, hcs, hco, hocc⟩ :=
            ih (Function.update b nc2 (some ⟨side⟩)) nc2 (eating + 1) hmeas hscan2
          have hrl : runLen (Function.update b nc2 (some ⟨side⟩)) side d nc2 =
              runLen b side d nc2 :=
            runLen_congr hray_agree
          have hrleq : runLen b side d nc = 1 + runLen b side d nc2 := by
            rw [runLen_unfold]
            simp only [hs, get_disk_of_inBounds hin2, hb2, if_neg hside]
          have heatstep : eatLoop b side d nc eating =
              eatLoop (Function.update b nc2 (some ⟨side⟩)) side d nc2 (eating + 1) := by
            rw [eatLoop_unfold]
            simp only [hs, get_disk_of_inBounds hin2, hb2, if_neg hside, hflip]
          have hcounts := counts_flip (x := side.opposite) hin2 hb2o
          simp only [Side.opposite_opposite] at hcounts
          refine ⟨b2, ?_, ?_, ?_, ?_, ?_⟩
          · have hnum : eating + runLen b side d nc =
                (eating + 1) + runLen (Function.update b nc2 (some ⟨side⟩)) side d nc2 := by
              rw [hrleq, hrl]
              omega
            rw [heatstep, hnum]
            exact heat
          · intro q hq
            have hq2 : ¬rayFrom nc2 d q := fun hr => hq (rayFrom_mono hs hr)
            have hqne : q ≠ nc2 := fun hqe => hq (hqe ▸ rayFrom_of_step hs)
            rw [hfr q hq2, hframe_f q hqne]
          · rw [hrleq]
            rw [hrl] at hcs
            omega
          · rw [hrleq]
            rw [hrl] at hco
            have h2 := hcounts.2.1
            omega
          · rw [hocc, hcounts.2.2]

theorem madResult_board (acc : Turn) (b2 : Board) (side : Side) (eating : Nat) :
    (madResult acc b2 side eating).board = b2 := by
  cases side <;> rfl

theorem madResult_state (acc : Turn) (b2 : Board) (side : Side) (eating : Nat) :
    (madResult acc b2 side eating).state = acc.state := by
  cases side <;> rfl

theorem madResult_score_mover (acc : Turn) (b2 : Board) (side : Side) (eating : Nat) :
    scoreOf (madResult acc b2 side eating) side = wadd (scoreOf acc side) eating := by
  cases side <;> rfl

theorem madResult_score_opp (acc : Turn) (b2 : Board) (side : Side) (eating : Nat) :
    scoreOf (madResult acc b2 side eating) side.opposite =
      wsub (scoreOf acc side.opposite) eating := by
  cases side <;> rfl

/-- Value of `perDirFlips` at a capturing direction is the adjacent flip plus the
eat-loop run. -/
theorem perDirFlips_of_capture {t : Turn} {c nc : Coord} {d : Direction} {side : Side}
    (hstT : t.state = some side) (hchk : t.check_move_along_direction c d = true)
    (hs : c.step d = .ok nc) :
    perDirFlips t c d = 1 + runLen t.board side d nc := by
  unfold perDirFlips
  rw [if_pos hchk, hstT, hs]

/-- A capturing direction (checked against `t`) executes successfully on any
accumulator that agrees with `t` along the ray of that direction: it flips
exactly the run, keeps the state, touches nothing off the ray, and applies
the wrapping score updates of the source. -/
theorem mad_spec {t acc : Turn} {c : Coord} {d : Direction} {side : Side}
    (hstT : t.state = some side)
    (hstA : acc.state = some side)
    (hchk : t.check_move_along_direction c d = true)
    (hagree : ∀ q, rayFrom c d q → acc.board q = t.board q) :
    ∃ t2, acc.make_move_along_direction c d = .ok t2 ∧
      t2.state = acc.state ∧
      (∀ q, ¬rayFrom c d q → t2.board q = acc.board q) ∧
      countSide t2.board side = countSide acc.board side + perDirFlips t c d ∧
      countSide acc.board side.opposite =
        countSide t2.board side.opposite + perDirFlips t c d ∧
      countOcc t2.board = countOcc acc.board ∧
      scoreOf t2 side = wadd (scoreOf acc side) (perDirFlips t c d) ∧
      scoreOf t2 side.opposite = wsub (scoreOf acc side.opposite) (perDirFlips t c d) := by
  have hchk2 : chkMoveDir t.board t.state c d = true := hchk
  unfold chkMoveDir at hchk2
  cases hs : c.step d with
  | error e => rw [hs] at hchk2; cases hchk2
  | ok nc =>
    simp only [hs] at hchk2
    have hin : nc.inBounds := step_ok_inBounds hs
    simp only [get_cell_of_inBounds hin] at hchk2
    cases hnd : t.board nc with
    | none => simp [hnd] at hchk2
    | some next_disk =>
      simp only [hnd] at hchk2
      by_cases hedge : some next_disk.get_side.opposite = t.state
      · rw [if_pos hedge] at hchk2
        rw [hstT] at hedge
        have hnds : next_disk.get_side = side.opposite := by
          have h1 : next_disk.get_side.opposite = side := by
            simpa using hedge
          exact Side.eq_of_opposite_eq h1
        have hndval : next_disk = ⟨side.opposite⟩ := by
          cases next_disk with
          | mk x => simpa [Disk.get_side] using hnds
        have hndacc : acc.board nc = some ⟨side.opposite⟩ := by
          rw [hagree nc (rayFrom_of_step hs), hnd, hndval]
        -- the scan (checked on t) transfers to acc and to the flipped board
        have hscanT : scanOpt t.board (some side) d nc = true := by
          rw [← hstT]; exact hchk2
        have hagree2 : ∀ q, rayFrom nc d q → acc.board q = t.board q :=
          fun q hq => hagree q (rayFrom_mono hs hq)
        have hscanA : scanOpt acc.board (some side) d nc = true := by
          rw [scanOpt_congr hagree2]; exact hscanT
        have hflipacc : acc.board.flip_disk nc =
            .ok (Function.update acc.board nc (some ⟨side⟩)) := by
          rw [flip_disk_some hin hndacc]
          simp [Disk.get_side, Side.opposite_opposite]
        have hagree3 : ∀ q, rayFrom nc d q →
            Function.update acc.board nc (some (⟨side⟩ : Disk)) q = acc.board q := by
          intro q hq
          have hqne : q ≠ nc := fun hqe => not_rayFrom_self nc d (hqe ▸ hq)
          rw [Function.update_noteq hqne]
        have hscanB : scanOpt (Function.update acc.board nc (some ⟨side⟩))
            (some side) d nc = true := by
          rw [scanOpt_congr hagree3]; exact hscanA
        obtain ⟨b2, heat, hfr, hcs, hco, hocc⟩ :=
          eat_spec (dirMeasure nc d) (Function.update acc.board nc (some ⟨side⟩))
            nc 1 (le_refl _) hscanB
        have hrlA : runLen (Function.update acc.board nc (some ⟨side⟩)) side d nc =
            runLen acc.board side d nc := runLen_congr hagree3
        have hrlT : runLen acc.board side d nc = runLen t.board side d nc :=
          runLen_congr hagree2
        have hperdir : perDirFlips t c d = 1 + runLen t.board side d nc :=
          perDirFlips_of_capture hstT hchk hs
        have hcounts := counts_flip (x := side.opposite) hin hndacc
        simp only [Side.opposite_opposite] at hcounts
        have hmake : acc.make_move_along_direction c d =
            .ok (madResult acc b2 side (1 + runLen t.board side d nc)) := by
          unfold Turn.make_move_along_direction madResult
          rw [hstA]
          simp only [hs, hflipacc, heat, hrlA, hrlT]
          cases side <;> rfl
        refine ⟨_, hmake, madResult_state acc b2 side _, ?_, ?_, ?_, ?_, ?_, ?_⟩
        · intro q hq
          have hq2 : ¬rayFrom nc d q := fun hr => hq (rayFrom_mono hs hr)
          have hqne : q ≠ nc := fun hqe => hq (hqe ▸ rayFrom_of_step hs)
          rw [madResult_board]
          rw [hfr q hq2, Function.update_noteq hqne]
        · rw [madResult_board, hperdir]
          rw [hrlA, hrlT] at hcs
          rw [hcs, hcounts.1]
          omega
        · rw [madResult_board, hperdir]
          rw [hrlA, hrlT] at hco
          have h2 := hcounts.2.1
          omega
        · rw [madResult_board, hocc, hcounts.2.2]
        · rw [madResult_score_mover, hperdir]
        · rw [madResult_score_opp, hperdir]
      · rw [if_neg hedge] at hchk2
        cases hchk2

theorem wadd_exact {a b : Nat} (h : a + b < 256) : wadd a b = a + b := by
  unfold wadd
  omega

theorem wsub_exact {a b : Nat} (hb : b ≤ a) (ha : a < 256) : wsub a b = a - b := by
  unfold wsub
  omega

theorem perDirFlips_of_not {t : Turn} {c : Coord} {d : Direction}
    (h : t.check_move_along_direction c d = false) : perDirFlips t c d = 0 := by
  simp [perDirFlips, h]

/-- The direction loop of `make_move`: it executes every direction the
legality scan (on `t`) reports, returns the `legal` flag, flips
`perDirFlips` disks per capturing direction, and preserves the
score-equals-count invariant. -/
theorem fold_spec {t : Turn} {c : Coord} {side : Side} (hstT : t.state = some side) :
    ∀ ds (acc : Turn), ds.Nodup → acc.state = some side →
      (∀ d ∈ ds, ∀ q, rayFrom c d q → acc.board q = t.board q) →
      ∃ res, moveAlongDirs t c acc ds =
          .ok (res, ds.any fun d => t.check_move_along_direction c d) ∧
        res.state = some side ∧
        (∀ q, (∀ d ∈ ds, ¬rayFrom c d q) → res.board q = acc.board q) ∧
        countSide res.board side =
          countSide acc.board side + (ds.map (perDirFlips t c)).sum ∧
        countSide acc.board side.opposite =
          countSide res.board side.opposite + (ds.map (perDirFlips t c)).sum ∧
        countOcc res.board = countOcc acc.board ∧
        (scoreOf acc side = countSide acc.board side →
          scoreOf acc side.opposite = countSide acc.board side.opposite →
          scoreOf res side = countSide res.board side ∧
            scoreOf res side.opposite = countSide res.board side.opposite) := by
  intro ds
  induction ds with
  | nil =>
    intro acc _ hstA _
    exact ⟨acc, rfl, hstA, fun q _ => rfl, by simp, by simp, rfl, fun h1 h2 => ⟨h1, h2⟩⟩
  | cons d ds ih =>
    intro acc hnodup hstA hagree
    have hdnotin : d ∉ ds := (List.nodup_cons.mp hnodup).1
    have hnodup2 : ds.Nodup := (List.nodup_cons.mp hnodup).2
    cases hchk : t.check_move_along_direction c d with
    | false =>
      obtain ⟨res, heq, hstR, hfrR, hcsR, hcoR, hoccR, hpres⟩ :=
        ih acc hnodup2 hstA fun d2 hd2 => hagree d2 (List.mem_cons_of_mem d hd2)
      refine ⟨res, ?_, hstR, ?_, ?_, ?_, hoccR, hpres⟩
      · simp only [moveAlongDirs, hchk, if_false, Bool.false_eq_true, heq,
          List.any_cons, Bool.false_or]
      · intro q hq
        exact hfrR q fun d2 hd2 => hq d2 (List.mem_cons_of_mem d hd2)
      · rw [hcsR]
        simp [perDirFlips_of_not hchk]
      · rw [hcoR]
        simp [perDirFlips_of_not hchk]
    | true =>
      obtain ⟨t2, hmad, hstT2, hfr2, hcs2, hco2, hocc2, hsm2, hso2⟩ :=
        mad_spec hstT hstA hchk (hagree d (List.mem_cons_self d ds))
      have hstA2 : t2.state = some side := by rw [hstT2, hstA]
      have hagree2 : ∀ d2 ∈ ds, ∀ q, rayFrom c d2 q → t2.board q = t.board q := by
        intro d2 hd2 q hq
        have hne : d ≠ d2 := fun he => hdnotin (he ▸ hd2)
        have hnq : ¬rayFrom c d q := fun hr => ray_disjoint hne hr hq
        rw [hfr2 q hnq]
        exact hagree d2 (List.mem_cons_of_mem d hd2) q hq
      obtain ⟨res, heq, hstR, hfrR, hcsR, hcoR, hoccR, hpres⟩ :=
        ih t2 hnodup2 hstA2 hagree2
      refine ⟨res, ?_, hstR, ?_, ?_, ?_, ?_, ?_⟩
      · simp only [moveAlongDirs, hchk, if_true, hmad, heq, List.any_cons,
          Bool.true_or]
      · intro q hq
        rw [hfrR q fun d2 hd2 => hq d2 (List.mem_cons_of_mem d hd2)]
        exact hfr2 q (hq d (List.mem_cons_self d ds))
      · rw [hcsR, hcs2]
        simp only [List.map_cons, List.sum_cons]
        omega
      · rw [hco2]
        rw [hcoR]
        simp only [List.map_cons, List.sum_cons]
        omega
      · rw [hoccR, hocc2]
      · intro h1 h2
        have hbound1 : countSide acc.board side ≤ 64 := countSide_le _ _
        have hbound2 : countSide acc.board side.opposite ≤ 64 := countSide_le _ _
        have hple : perDirFlips t c d ≤ countSide acc.board side.opposite := by omega
        have hs1 : scoreOf t2 side = countSide t2.board side := by
          rw [hsm2, h1, hcs2, wadd_exact]
          omega
        have hs2 : scoreOf t2 side.opposite = countSide t2.board side.opposite := by
          rw [hso2, h2, wsub_exact hple (by omega)]
          omega
        exact hpres hs1 hs2

theorem scoreBump_board (tam : Turn) (b2 : Board) (side : Side) :
    (scoreBump tam b2 side).board = b2 := by
  cases side <;> rfl

theorem scoreBump_state (tam : Turn) (b2 : Board) (side : Side) :
    (scoreBump tam b2 side).state = tam.state := by
  cases side <;> rfl

theorem scoreBump_score_mover (tam : Turn) (b2 : Board) (side : Side) :
    scoreOf (scoreBump tam b2 side) side = wadd (scoreOf tam side) 1 := by
  cases side <;> rfl

theorem scoreBump_score_opp (tam : Turn) (b2 : Board) (side : Side) :
    scoreOf (scoreBump tam b2 side) side.opposite = scoreOf tam side.opposite := by
  cases side <;> rfl

theorem get_tempo_scoreOf (t : Turn) :
    t.get_tempo = wadd (scoreOf t .Light) (scoreOf t .Dark) := rfl

theorem countSide_add (b : Board) :
    countSide b .Dark + countSide b .Light = countOcc b := by
  unfold countSide countOcc countCells
  rw [← Finset.sum_add_distrib]
  apply Finset.sum_congr rfl
  intro q _
  cases hb : b q with
  | none => simp
  | some dsk =>
    cases dsk with
    | mk s => cases s <;> simp

theorem Inv_scoreOf {t : Turn} (hinv : Inv t) (s : Side) :
    scoreOf t s = countSide t.board s := by
  cases s
  · exact hinv.1
  · exact hinv.2

theorem Inv_of_scoreOf {t : Turn} (side : Side)
    (h1 : scoreOf t side = countSide t.board side)
    (h2 : scoreOf t side.opposite = countSide t.board side.opposite) : Inv t := by
  cases side
  · exact ⟨h1, h2⟩
  · exact ⟨h2, h1⟩

theorem get_tempo_eq_occ {t : Turn} (hinv : Inv t) :
    t.get_tempo = countOcc t.board := by
  have h1 := countSide_le t.board Side.Dark
  have h2 := countSide_le t.board Side.Light
  rw [get_tempo_scoreOf, Inv_scoreOf hinv, Inv_scoreOf hinv,
    wadd_exact (by omega)]
  rw [← countSide_add t.board]
  omega

theorem DIRECTIONS_nodup : DIRECTIONS.Nodup := by decide

/-- Master characterization of a `make_move` call on an in-progress turn and
an in-bounds empty target cell: an illegal move fails with `IllegalMove`; a
legal one places the mover's disk, flips `totalFlips` disks, updates the
scores and determines the next state exactly as the source's cascade of
`can_move` checks does. -/
theorem make_move_spec {t : Turn} {c : Coord} {side : Side}
    (hstT : t.state = some side) (hcell : t.board.get_cell c = .ok none) :
    (DIRECTIONS.any (fun d => t.check_move_along_direction c d) = false →
      t.make_move c = .error (.IllegalMove c)) ∧
    (DIRECTIONS.any (fun d => t.check_move_along_direction c d) = true →
      ∃ T, t.make_move c = .ok T ∧
        countSide T.board side = countSide t.board side + (1 + totalFlips t c) ∧
        countSide t.board side.opposite =
          countSide T.board side.opposite + totalFlips t c ∧
        countOcc T.board = countOcc t.board + 1 ∧
        T.state = (if T.get_tempo = NUM_CELLS then none
          else if canMoveB T.board (some side.opposite) then some side.opposite
          else if canMoveB T.board (some side) then some side
          else none) ∧
        (Inv t → Inv T ∧
          scoreOf T side = scoreOf t side + (1 + totalFlips t c) ∧
          scoreOf t side.opposite = scoreOf T side.opposite + totalFlips t c)) := by
  have hin : c.inBounds := (get_cell_ok_none_iff.mp hcell).1
  have hcnone : t.board c = none := (get_cell_ok_none_iff.mp hcell).2
  obtain ⟨res, heq, hstR, hfrR, hcsR, hcoR, hoccR, hpres⟩ :=
    fold_spec hstT DIRECTIONS t DIRECTIONS_nodup hstT (fun _ _ _ _ => rfl)
  have hΦ : (DIRECTIONS.map (perDirFlips t c)).sum = totalFlips t c := rfl
  rw [hΦ] at hcsR hcoR
  constructor
  · intro hany
    rw [hany] at heq
    unfold Turn.make_move
    simp only [hcell, hstT, heq, Bool.false_eq_true, if_false]
  · intro hany
    rw [hany] at heq
    have hresc : res.board c = t.board c :=
      hfrR c fun d _ => not_rayFrom_self c d
    have hplace : res.board.place_disk side c =
        .ok (Function.update res.board c (some ⟨side⟩)) :=
      place_disk_none hin (by rw [hresc, hcnone])
    have hpl := counts_place (b := res.board) (p := c) (s := side) hin
      (by rw [hresc, hcnone])
    have hcb2s : countSide (Function.update res.board c (some ⟨side⟩)) side =
        countSide t.board side + (1 + totalFlips t c) := by
      rw [hpl.1, hcsR]
      omega
    have hcb2o : countSide t.board side.opposite =
        countSide (Function.update res.board c (some ⟨side⟩)) side.opposite +
          totalFlips t c := by
      rw [hpl.2.1, ← hcoR]
    have hcb2occ : countOcc (Function.update res.board c (some ⟨side⟩)) =
        countOcc t.board + 1 := by
      rw [hpl.2.2, hoccR]
    set t1 : Turn := scoreBump res (Function.update res.board c (some ⟨side⟩)) side
      with ht1
    have ht1board : t1.board = Function.update res.board c (some ⟨side⟩) :=
      scoreBump_board _ _ _
    have hinvfacts : Inv t →
        scoreOf t1 side = countSide (Function.update res.board c (some ⟨side⟩)) side ∧
          scoreOf t1 side.opposite =
            countSide (Function.update res.board c (some ⟨side⟩)) side.opposite := by
      intro hinv
      obtain ⟨hr1, hr2⟩ := hpres (Inv_scoreOf hinv side) (Inv_scoreOf hinv side.opposite)
      have hb1 : countSide res.board side ≤ 64 := countSide_le _ _
      constructor
      · rw [ht1, scoreBump_score_mover, hr1, hpl.1, wadd_exact (by omega)]
      · rw [ht1, scoreBump_score_opp, hr2, hpl.2.1]
    have hall : ∀ T : Turn,
        T.board = Function.update res.board c (some ⟨side⟩) →
        T.score_dark = t1.score_dark → T.score_light = t1.score_light →
        countSide T.board side = countSide t.board side + (1 + totalFlips t c) ∧
          countSide t.board side.opposite =
            countSide T.board side.opposite + totalFlips t c ∧
          countOcc T.board = countOcc t.board + 1 ∧
          (Inv t → Inv T ∧
            scoreOf T side = scoreOf t side + (1 + totalFlips t c) ∧
            scoreOf t side.opposite = scoreOf T side.opposite + totalFlips t c) := by
      intro T hTb hTd hTl
      have hsOf : ∀ s, scoreOf T s = scoreOf t1 s := by
        intro s
        cases s <;> simp [scoreOf, hTd, hTl]
      refine ⟨by rw [hTb]; exact hcb2s, by rw [hTb]; exact hcb2o,
        by rw [hTb]; exact hcb2occ, ?_⟩
      intro hinv
      obtain ⟨hx1, hx2⟩ := hinvfacts hinv
      refine ⟨Inv_of_scoreOf side (by rw [hTb, hsOf]; exact hx1)
        (by rw [hTb, hsOf]; exact hx2), ?_, ?_⟩
      · rw [hsOf, hx1, hcb2s, Inv_scoreOf hinv side]
      · rw [hsOf, hx2, Inv_scoreOf hinv side.opposite]
        exact hcb2o
    unfold Turn.make_move
    simp only [hcell, hstT, heq, hplace, if_true]
    rw [← ht1]
    by_cases htempo : t1.get_tempo = NUM_CELLS
    · obtain ⟨hA, hB, hC, hD⟩ := hall { t1 with state := none } ht1board rfl rfl
      refine ⟨{ t1 with state := none }, by rw [if_pos htempo], hA, hB, hC, ?_, hD⟩
      have hT : Turn.get_tempo { t1 with state := none } = t1.get_tempo := rfl
      rw [hT, if_pos htempo]
    · rw [if_neg htempo]
      by_cases hcm : canMoveB t1.board (some side.opposite) = true
      · obtain ⟨hA, hB, hC, hD⟩ :=
          hall { t1 with state := some side.opposite } ht1board rfl rfl
        have hcmP : ({ t1 with state := some side.opposite } : Turn).can_move = true :=
          hcm
        refine ⟨{ t1 with state := some side.opposite }, by rw [if_pos hcmP],
          hA, hB, hC, ?_, hD⟩
        have hT : Turn.get_tempo { t1 with state := some side.opposite } =
            t1.get_tempo := rfl
        have hTb : ({ t1 with state := some side.opposite } : Turn).board =
            t1.board := rfl
        rw [hT, if_neg htempo, hTb, if_pos hcm]
      · have hcmF : ({ t1 with state := some side.opposite } : Turn).can_move = false :=
          Bool.eq_false_iff.mpr hcm
        rw [if_neg (by simp [hcmF])]
        by_cases hcmB : canMoveB t1.board (some side) = true
        · obtain ⟨hA, hB, hC, hD⟩ :=
            hall { t1 with state := some side } ht1board rfl rfl
          have hcmP : ({ t1 with state := some side } : Turn).can_move = true := hcmB
          refine ⟨{ t1 with state := some side }, by rw [if_pos hcmP],
            hA, hB, hC, ?_, hD⟩
          have hT : Turn.get_tempo { t1 with state := some side } = t1.get_tempo := rfl
          have hTb : ({ t1 with state := some side } : Turn).board = t1.board := rfl
          rw [hT, if_neg htempo, hTb, if_neg (by simp [hcm]), if_pos hcmB]
        · have hcmBF : ({ t1 with state := some side } : Turn).can_move = false :=
            Bool.eq_false_iff.mpr hcmB
          rw [if_neg (by simp [hcmBF])]
          obtain ⟨hA, hB, hC, hD⟩ :=
            hall { t1 with state := none } ht1board rfl rfl
          refine ⟨{ t1 with state := none }, rfl, hA, hB, hC, ?_, hD⟩
          have hT : Turn.get_tempo { t1 with state := none } =
              t1.get_tempo := rfl
          have hTb : ({ t1 with state := none } : Turn).board =
              t1.board := rfl
          rw [hT, if_neg htempo, hTb, if_neg (by simp [hcm]), if_neg (by simp [hcmB])]

/-- A successful `make_move` implies an in-progress state, an in-bounds
empty target, and at least one capturing direction. -/
theorem make_move_ok_inversion {t : Turn} {c : Coord} {T : Turn}
    (h : t.make_move c = .ok T) :
    ∃ side, t.state = some side ∧ t.board.get_cell c = .ok none ∧
      DIRECTIONS.any (fun d => t.check_move_along_direction c d) = true := by
  cases hget : t.board.get_cell c with
  | error e =>
    unfold Turn.make_move at h
    simp [hget] at h
  | ok cell =>
    cases cell with
    | some dk =>
      unfold Turn.make_move at h
      simp [hget] at h
    | none =>
      cases hst : t.state with
      | none =>
        unfold Turn.make_move at h
        simp [hget, hst] at h
      | some side =>
        cases hany : DIRECTIONS.any (fun d => t.check_move_along_direction c d) with
        | true => exact ⟨side, rfl, rfl, rfl⟩
        | false =>
          obtain ⟨res, heq, _⟩ :=
            fold_spec hst DIRECTIONS t DIRECTIONS_nodup hst (fun _ _ _ _ => rfl)
          rw [hany] at heq
          unfold Turn.make_move at h
          simp [hget, hst, heq] at h

/-- Method `check_move` succeeds exactly on an in-progress turn, an in-bounds empty
cell, and at least one capturing direction. -/
theorem check_move_ok_iff {t : Turn} {c : Coord} :
    t.check_move c = .ok () ↔
      t.state ≠ none ∧ t.board.get_cell c = .ok none ∧
        DIRECTIONS.any (fun d => t.check_move_along_direction c d) = true := by
  unfold Turn.check_move
  cases hst : t.state with
  | none => simp
  | some s =>
    cases hget : t.board.get_cell c with
    | error e => simp [hget]
    | ok cell =>
      cases cell with
      | some dk => simp [hget]
      | none =>
        cases hany : DIRECTIONS.any (fun d => t.check_move_along_direction c d) with
        | true => simp [hget, hany]
        | false => simp [hget, hany]

/-- The full-board scan `can_move` agrees with the existence of a legal
move for the scanned side. -/
theorem canMoveB_iff {b : Board} {s : Side} :
    canMoveB b (some s) = true ↔ hasLegalMove b s := by
  constructor
  · intro h
    unfold canMoveB at h
    simp only [List.any_eq_true, List.mem_range] at h
    obtain ⟨row, hrow, col, hcol, hinner⟩ := h
    cases hb : b ⟨row, col⟩ with
    | some dk => rw [hb] at hinner; cases hinner
    | none =>
      rw [hb] at hinner
      refine ⟨⟨row, col⟩, ?_⟩
      rw [check_move_ok_iff]
      refine ⟨by simp, ?_, hinner⟩
      rw [get_cell_ok_none_iff]
      exact ⟨⟨hrow, hcol⟩, hb⟩
  · rintro ⟨c, hc⟩
    rw [check_move_ok_iff] at hc
    obtain ⟨-, hcell, hany⟩ := hc
    rw [get_cell_ok_none_iff] at hcell
    obtain ⟨⟨hr, hk⟩, hnone⟩ := hcell
    unfold canMoveB
    simp only [List.any_eq_true, List.mem_range]
    refine ⟨c.row, hr, c.col, hk, ?_⟩
    have hcc : (⟨c.row, c.col⟩ : Coord) = c := rfl
    have hnone2 : b c = none := hnone
    have hany2 : (DIRECTIONS.any fun d => chkMoveDir b (some s) c d) = true := hany
    rw [hcc, hnone2]
    exact hany2

theorem Inv_first : Inv first_turn := by
  constructor <;> decide

/-- Every reachable turn satisfies the score bookkeeping invariant. -/
theorem Reachable_Inv {t : Turn} (h : Reachable t) : Inv t := by
  induction h with
  | first => exact Inv_first
  | step hr heq ih =>
    rename_i t0 t2 c
    obtain ⟨side, hst, hcell, hany⟩ := make_move_ok_inversion heq
    obtain ⟨T, hok, _, _, _, _, hinv⟩ := (make_move_spec hst hcell).2 hany
    have hTt2 : T = t2 := by
      rw [heq] at hok
      exact (Except.ok.inj hok).symm
    rw [← hTt2]
    exact (hinv ih).1

theorem ScanSpec_shift {b : Board} {s : Side} {d : Direction} {nc nc2 : Coord}
    {disk : Disk} (hs : nc.step d = .ok nc2) (hocc : b nc2 = some disk)
    (hside : disk.get_side ≠ s) :
    ScanSpec b s d nc ↔ ScanSpec b s d nc2 := by
  constructor
  · rintro ⟨j, hj, hrun, p, hstep, hterm⟩
    have hj2 : 2 ≤ j := by
      rcases Nat.eq_or_lt_of_le hj with h1 | h1
      · exfalso
        rw [← h1] at hstep
        rw [stepN_one hs] at hstep
        cases hstep
        rw [hocc] at hterm
        cases hterm
        exact hside rfl
      · omega
    refine ⟨j - 1, by omega, ?_, p, ?_, hterm⟩
    · intro i h1 h2
      obtain ⟨q, dk, hq, hbq⟩ := hrun (i + 1) (by omega) (by omega)
      rw [stepN_succ_of_step hs] at hq
      exact ⟨q, dk, hq, hbq⟩
    · rw [← stepN_succ_of_step hs]
      have hje : j - 1 + 1 = j := by omega
      rw [hje]
      exact hstep
  · rintro ⟨j, hj, hrun, p, hstep, hterm⟩
    refine ⟨j + 1, by omega, ?_, p, ?_, hterm⟩
    · intro i h1 h2
      rcases Nat.eq_or_lt_of_le h1 with he | he
      · exact ⟨nc2, disk, by rw [← he]; exact stepN_one hs, by rw [← he] at *; exact hocc⟩
      · obtain ⟨q, dk, hq, hbq⟩ := hrun (i - 1) (by omega) (by omega)
        refine ⟨q, dk, ?_, hbq⟩
        have hie : i = (i - 1) + 1 := by omega
        rw [hie, stepN_succ_of_step hs]
        exact hq
    · rw [stepN_succ_of_step hs]
      exact hstep

theorem scanOpt_step_error {b : Board} {st : State} {d : Direction} {nc : Coord}
    {e : ReversiError} (hs : nc.step d = .error e) : scanOpt b st d nc = false := by
  rw [scanOpt_unfold, hs]

theorem scanOpt_step_ok {b : Board} {st : State} {d : Direction} {nc nc2 : Coord}
    (hs : nc.step d = .ok nc2) :
    scanOpt b st d nc =
      (match b.get_cell nc2 with
       | .ok (some disk) =>
         if some disk.get_side = st then true else scanOpt b st d nc2
       | _ => false) := by
  rw [scanOpt_unfold, hs]

theorem chkMoveDir_step_error {b : Board} {st : State} {c : Coord} {d : Direction}
    {e : ReversiError} (hs : c.step d = .error e) : chkMoveDir b st c d = false := by
  unfold chkMoveDir
  rw [hs]

theorem chkMoveDir_step_ok {b : Board} {st : State} {c nc : Coord} {d : Direction}
    (hs : c.step d = .ok nc) :
    chkMoveDir b st c d =
      (match b.get_cell nc with
       | .ok (some next_disk) =>
         if some next_disk.get_side.opposite = st then scanOpt b st d nc else false
       | _ => false) := by
  unfold chkMoveDir
  rw [hs]

theorem scanF_iff_spec {b : Board} {s : Side} {d : Direction} :
    ∀ n nc, dirMeasure nc d ≤ n →
      (scanOpt b (some s) d nc = true ↔ ScanSpec b s d nc) := by
  intro n
  induction n with
  | zero =>
    intro nc hn
    have hz := step_of_measure_zero (Nat.le_zero.mp hn)
    rw [scanOpt_step_error hz]
    constructor
    · intro h; cases h
    · rintro ⟨j, hj, _, p, hstep, _⟩
      rw [stepN_none_of_step_error hz j hj] at hstep
      cases hstep
  | succ n ih =>
    intro nc hn
    cases hs : nc.step d with
    | error e =>
      rw [scanOpt_step_error hs]
      constructor
      · intro h; cases h
      · rintro ⟨j, hj, _, p, hstep, _⟩
        rw [stepN_none_of_step_error hs j hj] at hstep
        cases hstep
    | ok nc2 =>
      have hin2 : nc2.inBounds := step_ok_inBounds hs
      cases hb2 : b nc2 with
      | none =>
        have hscan : scanOpt b (some s) d nc = false := by
          rw [scanOpt_step_ok hs, get_cell_of_inBounds hin2, hb2]
        rw [hscan]
        constructor
        · intro h; cases h
        · rintro ⟨j, hj, hrun, p, hstep, hterm⟩
          rcases Nat.eq_or_lt_of_le hj with h1 | h1
          · rw [← h1, stepN_one hs] at hstep
            cases hstep
            rw [hb2] at hterm
            cases hterm
          · obtain ⟨q, dk, hq, hbq⟩ := hrun 1 (le_refl _) h1
            rw [stepN_one hs] at hq
            cases hq
            rw [hb2] at hbq
            cases hbq
      | some disk =>
        have hscan : scanOpt b (some s) d nc =
            (if some disk.get_side = (some s : State) then true
             else scanOpt b (some s) d nc2) := by
          rw [scanOpt_step_ok hs, get_cell_of_inBounds hin2, hb2]
        by_cases hside : some disk.get_side = (some s : State)
        · rw [hscan, if_pos hside]
          have hds : disk = ⟨s⟩ := by
            cases disk with
            | mk x => simpa [Disk.get_side] using hside
          constructor
          · intro _
            exact ⟨1, le_refl _, fun i h1 h2 => absurd h2 (by omega),
              nc2, stepN_one hs, by rw [hb2, hds]⟩
          · intro _; rfl
        · rw [hscan, if_neg hside]
          have hmeas : dirMeasure nc2 d ≤ n := by
            have := step_decreases hs
            omega
          have hsne : disk.get_side ≠ s := by
            intro he
            exact hside (by rw [he])
          rw [ih nc2 hmeas]
          exact (ScanSpec_shift hs hb2 hsne).symm

theorem scanOpt_iff_ScanSpec {b : Board} {s : Side} {d : Direction} {nc : Coord} :
    scanOpt b (some s) d nc = true ↔ ScanSpec b s d nc :=
  scanF_iff_spec (dirMeasure nc d) nc (le_refl _)

theorem SpecCapture_of_ScanSpec {b : Board} {s : Side} {c nc : Coord} {d : Direction}
    (hs : c.step d = .ok nc) (hadj : b nc = some ⟨s.opposite⟩)
    (h : ScanSpec b s d nc) : SpecCapture b s c d := by
  obtain ⟨j0, hj0, hrun0, hterm0⟩ := h
  have main : ∀ j, 1 ≤ j →
      (∀ i, 1 ≤ i → i < j → ∃ p dk, stepN nc d i = some p ∧ b p = some dk) →
      (∃ p, stepN nc d j = some p ∧ b p = some ⟨s⟩) →
      SpecCapture b s c d := by
    intro j
    induction j using Nat.strong_induction_on with
    | _ j ihj =>
      intro hj hrun hterm
      by_cases hall : ∀ i, 1 ≤ i → i < j → ∃ p, stepN nc d i = some p ∧
          b p = some ⟨s.opposite⟩
      · refine ⟨j, hj, ?_, ?_⟩
        · intro i h1 h2
          rcases Nat.eq_or_lt_of_le h1 with he | he
          · exact ⟨nc, by rw [← he]; exact stepN_one hs, by rw [← he] at *; exact hadj⟩
          · obtain ⟨p, hp, hbp⟩ := hall (i - 1) (by omega) (by omega)
            refine ⟨p, ?_, hbp⟩
            have hie : i = (i - 1) + 1 := by omega
            rw [hie, stepN_succ_of_step hs]
            exact hp
        · obtain ⟨p, hp, hbp⟩ := hterm
          refine ⟨p, ?_, hbp⟩
          rw [stepN_succ_of_step hs]
          exact hp
      · push_neg at hall
        obtain ⟨i, h1, h2, hne⟩ := hall
        obtain ⟨p, dk, hp, hbp⟩ := hrun i h1 h2
        have hdk : dk = ⟨s⟩ := by
          cases dk with
          | mk x =>
            have hxne : x ≠ s.opposite := by
              intro he
              exact hne p hp (by rw [hbp, he])
            have hx : x = s.opposite.opposite := Side.eq_opposite_of_ne hxne
            rw [hx, Side.opposite_opposite]
        exact ihj i h2 h1 (fun i2 ha hb => hrun i2 ha (by omega))
          ⟨p, hp, by rw [← hdk]; exact hbp⟩
  exact main j0 hj0 hrun0 hterm0

theorem ScanSpec_of_SpecCapture {b : Board} {s : Side} {c nc : Coord} {d : Direction}
    (hs : c.step d = .ok nc) (h : SpecCapture b s c d) : ScanSpec b s d nc := by
  obtain ⟨k, hk, hrun, p, hstep, hterm⟩ := h
  refine ⟨k, hk, ?_, p, ?_, hterm⟩
  · intro i h1 h2
    obtain ⟨q, hq, hbq⟩ := hrun (i + 1) (by omega) (by omega)
    rw [stepN_succ_of_step hs] at hq
    exact ⟨q, ⟨s.opposite⟩, hq, hbq⟩
  · rw [← stepN_succ_of_step hs]
    exact hstep

/-- The source's per-direction legality scan agrees with the capture
condition as the spec words it. -/
theorem chkMoveDir_iff_SpecCapture {b : Board} {s : Side} {c : Coord} {d : Direction} :
    chkMoveDir b (some s) c d = true ↔ SpecCapture b s c d := by
  cases hs : c.step d with
  | error e =>
    rw [chkMoveDir_step_error hs]
    constructor
    · intro h; cases h
    · rintro ⟨k, hk, hrun, p, hstep, hterm⟩
      obtain ⟨q, hq, hbq⟩ := hrun 1 (le_refl _) hk
      rw [stepN_none_of_step_error hs 1 (le_refl _)] at hq
      cases hq
  | ok nc =>
    have hin : nc.inBounds := step_ok_inBounds hs
    cases hnd : b nc with
    | none =>
      have hchk : chkMoveDir b (some s) c d = false := by
        rw [chkMoveDir_step_ok hs, get_cell_of_inBounds hin, hnd]
      rw [hchk]
      constructor
      · intro h; cases h
      · rintro ⟨k, hk, hrun, p, hstep, hterm⟩
        obtain ⟨q, hq, hbq⟩ := hrun 1 (le_refl _) hk
        rw [stepN_one hs] at hq
        cases hq
        rw [hnd] at hbq
        cases hbq
    | some nd =>
      have hchk : chkMoveDir b (some s) c d =
          (if some nd.get_side.opposite = (some s : State) then
            scanOpt b (some s) d nc else false) := by
        rw [chkMoveDir_step_ok hs, get_cell_of_inBounds hin, hnd]
      by_cases hedge : some nd.get_side.opposite = (some s : State)
      · rw [hchk, if_pos hedge]
        have hadj : b nc = some ⟨s.opposite⟩ := by
          rw [hnd]
          cases nd with
          | mk x =>
            have hx : x.opposite = s := by simpa using hedge
            rw [Side.eq_of_opposite_eq hx]
        rw [scanOpt_iff_ScanSpec]
        constructor
        · exact SpecCapture_of_ScanSpec hs hadj
        · exact ScanSpec_of_SpecCapture hs
      · rw [hchk, if_neg hedge]
        constructor
        · intro h; cases h
        · rintro ⟨k, hk, hrun, p, hstep, hterm⟩
          obtain ⟨q, hq, hbq⟩ := hrun 1 (le_refl _) hk
          rw [stepN_one hs] at hq
          cases hq
          rw [hnd] at hbq
          exfalso
          apply hedge
          cases hbq
          simp [Disk.get_side, Side.opposite_opposite]

theorem makeMoveWithSelf_frame (t : Turn) (c : Coord) :
    (t.makeMoveWithSelf c).1 = t := by
  unfold Turn.makeMoveWithSelf
  repeat' first
    | rfl
    | split
    | dsimp only

theorem makeMoveWithSelf_agrees (t : Turn) (c : Coord) :
    (t.makeMoveWithSelf c).2 = t.make_move c := by
  unfold Turn.makeMoveWithSelf Turn.make_move
  repeat' first
    | rfl
    | split
    | dsimp only
  all_goals simp_all

/-- C1: for every in-progress Turn and every in-bounds empty coordinate c,
check_move(c) succeeds if and only if at least one of the 8 compass
directions from c has a non-empty contiguous run of opposite-side disks
starting at the immediately adjacent cell and terminated (before running
off-board or reaching an empty cell) by a disk of the moving side; when no
direction yields such a capture it fails with IllegalMove(c). -/
theorem claim_C1 {t : Turn} {c : Coord} {s : Side}
    (hst : t.state = some s) (hcell : t.board.get_cell c = .ok none) :
    (t.check_move c = .ok () ↔ ∃ d : Direction, SpecCapture t.board s c d) ∧
    ((¬∃ d : Direction, SpecCapture t.board s c d) →
      t.check_move c = .error (.IllegalMove c)) := by
  have hiff : (DIRECTIONS.any fun d => t.check_move_along_direction c d) = true ↔
      ∃ d : Direction, SpecCapture t.board s c d := by
    rw [List.any_eq_true]
    constructor
    · rintro ⟨d, -, hd⟩
      refine ⟨d, chkMoveDir_iff_SpecCapture.mp ?_⟩
      show chkMoveDir t.board (some s) c d = true
      rw [← hst]
      exact hd
    · rintro ⟨d, hd⟩
      refine ⟨d, by cases d <;> decide, ?_⟩
      show chkMoveDir t.board t.state c d = true
      rw [hst]
      exact chkMoveDir_iff_SpecCapture.mpr hd
  constructor
  · rw [check_move_ok_iff]
    constructor
    · rintro ⟨-, -, hany⟩
      exact hiff.mp hany
    · intro hex
      exact ⟨by rw [hst]; simp, hcell, hiff.mpr hex⟩
  · intro hnex
    have hany : (DIRECTIONS.any fun d => t.check_move_along_direction c d) = false := by
      cases hq : (DIRECTIONS.any fun d => t.check_move_along_direction c d) with
      | true => exact absurd (hiff.mp hq) hnex
      | false => rfl
    unfold Turn.check_move
    rw [hst]
    simp [hcell, hany]

/-- Witness for C1 at the first turn and the legal opening square (2,3). -/
theorem claim_C1_witness :
    first_turn.state = some .Dark ∧
    first_turn.board.get_cell ⟨2, 3⟩ = .ok none ∧
    ((first_turn.check_move ⟨2, 3⟩ = .ok () ↔
        ∃ d : Direction, SpecCapture first_turn.board .Dark ⟨2, 3⟩ d) ∧
      ((¬∃ d : Direction, SpecCapture first_turn.board .Dark ⟨2, 3⟩ d) →
        first_turn.check_move ⟨2, 3⟩ = .error (.IllegalMove ⟨2, 3⟩))) :=
  ⟨rfl, by decide, claim_C1 rfl (by decide)⟩

/-- C2: after every successful make_move, the new Turn's status is: Ended if
tempo equals N-squared; otherwise opponent-to-move if the opponent has a
legal move on the new board; otherwise mover-to-move (pass) if the mover
has one; otherwise Ended.  A full board yields Ended regardless of
captures. -/
theorem claim_C2 {t T : Turn} {c : Coord} {s : Side}
    (hst : t.state = some s) (hmk : t.make_move c = .ok T) :
    (T.get_tempo = NUM_CELLS → T.state = none) ∧
    (T.get_tempo ≠ NUM_CELLS →
      (hasLegalMove T.board s.opposite → T.state = some s.opposite) ∧
      (¬hasLegalMove T.board s.opposite → hasLegalMove T.board s →
        T.state = some s) ∧
      (¬hasLegalMove T.board s.opposite → ¬hasLegalMove T.board s →
        T.state = none)) := by
  obtain ⟨side, hst2, hcell, hany⟩ := make_move_ok_inversion hmk
  have hss : side = s := by
    rw [hst] at hst2
    exact (Option.some.inj hst2).symm
  subst hss
  obtain ⟨T2, hok, -, -, -, hstatus, -⟩ := (make_move_spec hst2 hcell).2 hany
  have hTT : T2 = T := by
    rw [hmk] at hok
    exact (Except.ok.inj hok).symm
  subst hTT
  constructor
  · intro htempo
    rw [hstatus, if_pos htempo]
  · intro htempo
    refine ⟨?_, ?_, ?_⟩
    · intro hopp
      rw [hstatus, if_neg htempo, if_pos (canMoveB_iff.mpr hopp)]
    · intro hnopp hmover
      rw [hstatus, if_neg htempo,
        if_neg (fun hq => hnopp (canMoveB_iff.mp hq)),
        if_pos (canMoveB_iff.mpr hmover)]
    · intro hnopp hnmover
      rw [hstatus, if_neg htempo,
        if_neg (fun hq => hnopp (canMoveB_iff.mp hq)),
        if_neg (fun hq => hnmover (canMoveB_iff.mp hq))]

/-- Witness for C2 at the concrete opening move (2,3). -/
theorem claim_C2_witness :
    first_turn.state = some .Dark ∧
    first_turn.make_move ⟨2, 3⟩ = .ok demoTurn ∧
    ((demoTurn.get_tempo = NUM_CELLS → demoTurn.state = none) ∧
      (demoTurn.get_tempo ≠ NUM_CELLS →
        (hasLegalMove demoTurn.board Side.Dark.opposite →
          demoTurn.state = some Side.Dark.opposite) ∧
        (¬hasLegalMove demoTurn.board Side.Dark.opposite →
          hasLegalMove demoTurn.board .Dark → demoTurn.state = some .Dark) ∧
        (¬hasLegalMove demoTurn.board Side.Dark.opposite →
          ¬hasLegalMove demoTurn.board .Dark → demoTurn.state = none))) :=
  ⟨rfl, rfl, @claim_C2 first_turn demoTurn ⟨2, 3⟩ .Dark rfl rfl⟩

/-- C3: a successful make_move increases the mover's score by exactly
1 plus the total flip count, decreases the opponent's score by exactly the
flip count, and increases tempo by exactly 1 - for both moving sides. -/
theorem claim_C3 {t T : Turn} {c : Coord} {s : Side}
    (hre : Reachable t) (hst : t.state = some s) (hmk : t.make_move c = .ok T) :
    scoreOf T s = scoreOf t s + (1 + totalFlips t c) ∧
    scoreOf t s.opposite = scoreOf T s.opposite + totalFlips t c ∧
    T.get_tempo = t.get_tempo + 1 := by
  have hinv := Reachable_Inv hre
  obtain ⟨side, hst2, hcell, hany⟩ := make_move_ok_inversion hmk
  have hss : side = s := by
    rw [hst] at hst2
    exact (Option.some.inj hst2).symm
  subst hss
  obtain ⟨T2, hok, -, -, hocc, -, hinvpart⟩ := (make_move_spec hst2 hcell).2 hany
  have hTT : T2 = T := by
    rw [hmk] at hok
    exact (Except.ok.inj hok).symm
  subst hTT
  obtain ⟨hinvT, hd1, hd2⟩ := hinvpart hinv
  refine ⟨hd1, hd2, ?_⟩
  rw [get_tempo_eq_occ hinvT, get_tempo_eq_occ hinv, hocc]

/-- Witness for C3 at the concrete opening move (2,3). -/
theorem claim_C3_witness :
    Reachable first_turn ∧
    first_turn.state = some .Dark ∧
    first_turn.make_move ⟨2, 3⟩ = .ok demoTurn ∧
    (scoreOf demoTurn .Dark =
        scoreOf first_turn .Dark + (1 + totalFlips first_turn ⟨2, 3⟩) ∧
      scoreOf first_turn Side.Dark.opposite =
        scoreOf demoTurn Side.Dark.opposite + totalFlips first_turn ⟨2, 3⟩ ∧
      demoTurn.get_tempo = first_turn.get_tempo + 1) :=
  ⟨.first, rfl, rfl, @claim_C3 first_turn demoTurn ⟨2, 3⟩ .Dark .first rfl rfl⟩

/-- C4: on every reachable Turn, score_A + score_B equals the number of
occupied cells, which equals get_tempo, and both scores lie in [0, N²]. -/
theorem claim_C4 {t : Turn} (hre : Reachable t) :
    t.score_dark + t.score_light = countOcc t.board ∧
    t.get_tempo = countOcc t.board ∧
    t.score_dark ≤ NUM_CELLS ∧ t.score_light ≤ NUM_CELLS := by
  have hinv := Reachable_Inv hre
  have h1 := countSide_le t.board .Dark
  have h2 := countSide_le t.board .Light
  have h3 := countSide_add t.board
  have h4 : NUM_CELLS = 64 := rfl
  refine ⟨?_, get_tempo_eq_occ hinv, ?_, ?_⟩
  · rw [hinv.1, hinv.2]
    omega
  · rw [hinv.1]
    omega
  · rw [hinv.2]
    omega

/-- Witness for C4 at the first turn. -/
theorem claim_C4_witness :
    Reachable first_turn ∧
    (first_turn.score_dark + first_turn.score_light = countOcc first_turn.board ∧
      first_turn.get_tempo = countOcc first_turn.board ∧
      first_turn.score_dark ≤ NUM_CELLS ∧ first_turn.score_light ≤ NUM_CELLS) :=
  ⟨.first, claim_C4 .first⟩

/-- C5 counterexample: on an ended game, make_move at the occupied cell
(3,3) returns CellAlreadyTaken, not EndedGame as the claim states. -/
theorem claim_C5_counterexample :
    endedTurn.state = none ∧
    endedTurn.make_move ⟨3, 3⟩ = .error (.CellAlreadyTaken ⟨3, 3⟩) ∧
    ReversiError.CellAlreadyTaken ⟨3, 3⟩ ≠ ReversiError.EndedGame :=
  ⟨rfl, rfl, by decide⟩

/-- C5 as amended: on an ended Turn, make_move fails with EndedGame when the
coordinate is in-bounds and empty; on an occupied or out-of-bounds
coordinate it fails with CellAlreadyTaken instead (the emptiness test runs
before the ended-game test). -/
theorem claim_C5_amended {t : Turn} {c : Coord} (hend : t.state = none) :
    (t.board.get_cell c = .ok none → t.make_move c = .error .EndedGame) ∧
    (t.board.get_cell c ≠ .ok none →
      t.make_move c = .error (.CellAlreadyTaken c)) := by
  constructor
  · intro hcell
    unfold Turn.make_move
    simp [hcell, hend]
  · intro hcell
    unfold Turn.make_move
    cases hget : t.board.get_cell c with
    | error e => simp [hget]
    | ok cell =>
      cases cell with
      | none => exact absurd hget hcell
      | some dk => simp [hget]

/-- Witness for the amended C5 at the concrete ended turn. -/
theorem claim_C5_witness :
    endedTurn.state = none ∧
    ((endedTurn.board.get_cell ⟨0, 0⟩ = .ok none →
        endedTurn.make_move ⟨0, 0⟩ = .error .EndedGame) ∧
      (endedTurn.board.get_cell ⟨0, 0⟩ ≠ .ok none →
        endedTurn.make_move ⟨0, 0⟩ = .error (.CellAlreadyTaken ⟨0, 0⟩))) :=
  ⟨rfl, claim_C5_amended rfl⟩

/-- C6 counterexample: at the out-of-bounds coordinate (8,0), check_move
propagates the collaborator's bounds error but make_move replaces it with
CellAlreadyTaken, so the two do not both surface the bounds error. -/
theorem claim_C6_counterexample :
    first_turn.check_move ⟨8, 0⟩ = .error (.OutOfBounds ⟨8, 0⟩) ∧
    first_turn.make_move ⟨8, 0⟩ = .error (.CellAlreadyTaken ⟨8, 0⟩) ∧
    ReversiError.CellAlreadyTaken ⟨8, 0⟩ ≠ ReversiError.OutOfBounds ⟨8, 0⟩ :=
  ⟨rfl, rfl, by decide⟩

/-- C6 as amended: for an out-of-bounds coordinate, check_move on an
in-progress Turn propagates the bounds error unchanged, but make_move
always fails with CellAlreadyTaken(c) instead. -/
theorem claim_C6_amended {t : Turn} {c : Coord} (hoob : ¬c.inBounds) :
    (∀ s, t.state = some s → t.check_move c = .error (.OutOfBounds c)) ∧
    t.make_move c = .error (.CellAlreadyTaken c) := by
  have hget : t.board.get_cell c = .error (.OutOfBounds c) :=
    get_cell_error_of_not_inBounds hoob
  constructor
  · intro s hst
    unfold Turn.check_move
    rw [hst]
    simp [hget]
  · unfold Turn.make_move
    simp [hget]

/-- Witness for the amended C6 at the out-of-bounds coordinate (8,1). -/
theorem claim_C6_witness :
    ¬(⟨8, 1⟩ : Coord).inBounds ∧
    ((∀ s, first_turn.state = some s →
        first_turn.check_move ⟨8, 1⟩ = .error (.OutOfBounds ⟨8, 1⟩)) ∧
      first_turn.make_move ⟨8, 1⟩ = .error (.CellAlreadyTaken ⟨8, 1⟩)) :=
  ⟨by decide, claim_C6_amended (by decide)⟩

/-- C7 counterexample: at the out-of-bounds coordinate (8,0) both calls
fail but with different errors, refuting that failures always agree. -/
theorem claim_C7_counterexample :
    (first_turn.make_move ⟨8, 0⟩).isOk = false ∧
    (first_turn.check_move ⟨8, 0⟩).isOk = false ∧
    errOf (first_turn.make_move ⟨8, 0⟩) ≠ errOf (first_turn.check_move ⟨8, 0⟩) :=
  ⟨rfl, rfl, by decide⟩

/-- C7 as amended: make_move succeeds exactly when check_move succeeds, and
when both fail on an in-bounds empty cell the errors coincide; when the cell
lookup is not an empty cell (occupied or out-of-bounds) make_move reports
CellAlreadyTaken(c), which can disagree with check_move's error. -/
theorem claim_C7_amended (t : Turn) (c : Coord) :
    (t.make_move c).isOk = (t.check_move c).isOk ∧
    (t.board.get_cell c = .ok none →
      errOf (t.make_move c) = errOf (t.check_move c)) ∧
    (t.board.get_cell c ≠ .ok none →
      t.make_move c = .error (.CellAlreadyTaken c)) := by
  cases hget : t.board.get_cell c with
  | error e =>
    have hmk : t.make_move c = .error (.CellAlreadyTaken c) := by
      unfold Turn.make_move
      simp [hget]
    cases hst : t.state with
    | none =>
      have hck : t.check_move c = .error .EndedGame := by
        unfold Turn.check_move
        rw [hst]
      refine ⟨by rw [hmk, hck]; rfl, ?_, fun _ => hmk⟩
      intro hc
      simp at hc
    | some s =>
      have hck : t.check_move c = .error e := by
        unfold Turn.check_move
        rw [hst]
        simp [hget]
      refine ⟨by rw [hmk, hck]; rfl, ?_, fun _ => hmk⟩
      intro hc
      simp at hc
  | ok cell =>
    cases cell with
    | some dk =>
      have hmk : t.make_move c = .error (.CellAlreadyTaken c) := by
        unfold Turn.make_move
        simp [hget]
      cases hst : t.state with
      | none =>
        have hck : t.check_move c = .error .EndedGame := by
          unfold Turn.check_move
          rw [hst]
        refine ⟨by rw [hmk, hck]; rfl, ?_, fun _ => hmk⟩
        intro hc
        simp at hc
      | some s =>
        have hck : t.check_move c = .error (.CellAlreadyTaken c) := by
          unfold Turn.check_move
          rw [hst]
          simp [hget]
        refine ⟨by rw [hmk, hck]; rfl, ?_, fun _ => hmk⟩
        intro hc
        simp at hc
    | none =>
      cases hst : t.state with
      | none =>
        have hmk : t.make_move c = .error .EndedGame := by
          unfold Turn.make_move
          simp [hget, hst]
        have hck : t.check_move c = .error .EndedGame := by
          unfold Turn.check_move
          rw [hst]
        exact ⟨by rw [hmk, hck]; rfl, fun _ => by rw [hmk, hck]; rfl,
          fun hc => absurd rfl hc⟩
      | some s =>
        cases hany : DIRECTIONS.any (fun d => t.check_move_along_direction c d) with
        | false =>
          have hmk : t.make_move c = .error (.IllegalMove c) :=
            (make_move_spec hst hget).1 hany
          have hck : t.check_move c = .error (.IllegalMove c) := by
            unfold Turn.check_move
            rw [hst]
            simp [hget, hany]
          exact ⟨by rw [hmk, hck]; rfl, fun _ => by rw [hmk, hck]; rfl,
          fun hc => absurd rfl hc⟩
        | true =>
          obtain ⟨T, hok, -⟩ := (make_move_spec hst hget).2 hany
          have hck : t.check_move c = .ok () :=
            check_move_ok_iff.mpr ⟨by rw [hst]; simp, hget, hany⟩
          exact ⟨by rw [hok, hck]; rfl, fun _ => by rw [hok, hck]; rfl,
            fun hc => absurd rfl hc⟩

/-- Witness for the amended C7 at the legal opening square (2,3). -/
theorem claim_C7_witness :
    (first_turn.make_move ⟨2, 3⟩).isOk = (first_turn.check_move ⟨2, 3⟩).isOk ∧
    (first_turn.board.get_cell ⟨2, 3⟩ = .ok none →
      errOf (first_turn.make_move ⟨2, 3⟩) = errOf (first_turn.check_move ⟨2, 3⟩)) ∧
    (first_turn.board.get_cell ⟨2, 3⟩ ≠ .ok none →
      first_turn.make_move ⟨2, 3⟩ = .error (.CellAlreadyTaken ⟨2, 3⟩)) :=
  claim_C7_amended first_turn ⟨2, 3⟩

/-- C8: make_move is a pure function of the receiving Turn: with the
receiver threaded as explicit mutable state, the call leaves it unchanged
(board, scores and status as before) and its result agrees with the pure
make_move, so the returned Turn is an independent value. -/
theorem claim_C8 (t : Turn) (c : Coord) :
    (t.makeMoveWithSelf c).1 = t ∧ (t.makeMoveWithSelf c).2 = t.make_move c :=
  ⟨makeMoveWithSelf_frame t c, makeMoveWithSelf_agrees t c⟩

/-- C9: first_turn() has score 2-2, tempo 4, Dark to move, exactly the
starting cross pattern on the four center cells (same-side disks diagonal),
and - as its board holds exactly 4 disks - every other cell empty. -/
theorem claim_C9 :
    first_turn.get_score = (2, 2) ∧
    first_turn.get_tempo = 4 ∧
    first_turn.state = some .Dark ∧
    first_turn.board ⟨3, 4⟩ = some ⟨.Dark⟩ ∧
    first_turn.board ⟨4, 3⟩ = some ⟨.Dark⟩ ∧
    first_turn.board ⟨3, 3⟩ = some ⟨.Light⟩ ∧
    first_turn.board ⟨4, 4⟩ = some ⟨.Light⟩ ∧
    countOcc first_turn.board = 4 :=
  ⟨rfl, rfl, rfl, by decide, by decide, by decide, by decide, by decide⟩

/-- C10: no core operation panics: the four place_disk calls of first_turn
succeed (the expect branches are unreachable); on a reachable Turn, any
direction the legality scan reports executes with make_move_along_direction
returning Ok and with exact (non-wrapping) u8 score arithmetic, and
make_move only ever fails with the three business errors - the
step/get_disk/flip_disk error branches are unreachable. -/
theorem claim_C10 :
    first_turn_board.isOk = true ∧
    (∀ t c d s, Reachable t → t.state = some s →
      t.check_move_along_direction c d = true →
      (t.make_move_along_direction c d).isOk = true ∧
      (∀ t2, t.make_move_along_direction c d = .ok t2 →
        scoreOf t2 s = scoreOf t s + perDirFlips t c d ∧
        scoreOf t s.opposite = scoreOf t2 s.opposite + perDirFlips t c d)) ∧
    (∀ t c e, Reachable t → t.make_move c = .error e →
      e = .EndedGame ∨ e = .CellAlreadyTaken c ∨ e = .IllegalMove c) := by
  refine ⟨rfl, ?_, ?_⟩
  · intro t c d s hre hst hchk
    have hinv := Reachable_Inv hre
    obtain ⟨t2, hmad, -, -, hcs, hco, -, hsm, hso⟩ :=
      mad_spec hst hst hchk (fun _ _ => rfl)
    have hb1 : countSide t.board s ≤ 64 := countSide_le _ _
    have hb2 : countSide t.board s.opposite ≤ 64 := countSide_le _ _
    have hple : perDirFlips t c d ≤ countSide t.board s.opposite := by omega
    have hsm2 : scoreOf t2 s = scoreOf t s + perDirFlips t c d := by
      rw [hsm, Inv_scoreOf hinv s, wadd_exact (by omega)]
    have hso2 : scoreOf t s.opposite = scoreOf t2 s.opposite + perDirFlips t c d := by
      rw [hso, Inv_scoreOf hinv s.opposite, wsub_exact hple (by omega)]
      omega
    refine ⟨by rw [hmad]; rfl, ?_⟩
    intro t2x hmad2
    have ht22 : t2 = t2x := by
      rw [hmad] at hmad2
      exact Except.ok.inj hmad2
    subst ht22
    exact ⟨hsm2, hso2⟩
  · intro t c e hre hmk
    cases hget : t.board.get_cell c with
    | error e2 =>
      have h2 : t.make_move c = .error (.CellAlreadyTaken c) := by
        unfold Turn.make_move
        simp [hget]
      rw [h2] at hmk
      exact Or.inr (Or.inl (Except.error.inj hmk).symm)
    | ok cell =>
      cases cell with
      | some dk =>
        have h2 : t.make_move c = .error (.CellAlreadyTaken c) := by
          unfold Turn.make_move
          simp [hget]
        rw [h2] at hmk
        exact Or.inr (Or.inl (Except.error.inj hmk).symm)
      | none =>
        cases hst : t.state with
        | none =>
          have h2 : t.make_move c = .error .EndedGame := by
            unfold Turn.make_move
            simp [hget, hst]
          rw [h2] at hmk
          exact Or.inl (Except.error.inj hmk).symm
        | some s =>
          cases hany : DIRECTIONS.any (fun d => t.check_move_along_direction c d) with
          | false =>
            have h2 : t.make_move c = .error (.IllegalMove c) :=
              (make_move_spec hst hget).1 hany
            rw [h2] at hmk
            exact Or.inr (Or.inr (Except.error.inj hmk).symm)
          | true =>
            obtain ⟨T, hok, -⟩ := (make_move_spec hst hget).2 hany
            rw [hok] at hmk
            cases hmk

/-- Witness for C10: the opening capture south from (2,3) on the first
turn, and the illegal move (0,0). -/
theorem claim_C10_witness :
    first_turn_board.isOk = true ∧
    Reachable first_turn ∧
    first_turn.state = some .Dark ∧
    first_turn.check_move_along_direction ⟨2, 3⟩ .South = true ∧
    (first_turn.make_move_along_direction ⟨2, 3⟩ .South).isOk = true ∧
    first_turn.make_move_along_direction ⟨2, 3⟩ .South = .ok demoMad ∧
    (scoreOf demoMad .Dark =
        scoreOf first_turn .Dark + perDirFlips first_turn ⟨2, 3⟩ .South ∧
      scoreOf first_turn Side.Dark.opposite =
        scoreOf demoMad Side.Dark.opposite + perDirFlips first_turn ⟨2, 3⟩ .South) ∧
    first_turn.make_move ⟨0, 0⟩ = .error (.IllegalMove ⟨0, 0⟩) ∧
    (ReversiError.IllegalMove ⟨0, 0⟩ = .EndedGame ∨
      ReversiError.IllegalMove ⟨0, 0⟩ = .CellAlreadyTaken ⟨0, 0⟩ ∨
      ReversiError.IllegalMove ⟨0, 0⟩ = .IllegalMove ⟨0, 0⟩) :=
  ⟨claim_C10.1, .first, rfl, by decide,
    (claim_C10.2.1 first_turn ⟨2, 3⟩ .South .Dark .first rfl (by decide)).1,
    rfl,
    (claim_C10.2.1 first_turn ⟨2, 3⟩ .South .Dark .first rfl (by decide)).2
      demoMad rfl,
    rfl,
    claim_C10.2.2 first_turn ⟨0, 0⟩ (.IllegalMove ⟨0, 0⟩) .first rfl⟩

end Rusthello
